import Mathlib

set_option maxHeartbeats 1000000

/-!
Shallow embedding of the scregseg repository's core:

* `src/src/scseg/mlda.py` — the `Scseg` topic model (Markov-augmented online
  variational LDA): the per-document E-step fixed point
  (`_update_doc_distribution_lda`, `_update_doc_distribution_markovlda`), the
  EM scheduler (`Scseg._e_step`, `Scseg._em_step`, `Scseg.fit`), transform and
  scoring (`Scseg.transform`, `Scseg.compute_likelihood`, `Scseg._approx_bound`,
  `Scseg.score`).
* `src/src/scregseg/countmatrix.py` — the `CountMatrix` container and its
  deriving operations.

Conventions of the embedding:

* floating point numbers are idealised as real numbers (`ℝ`);
* the digamma function `psi` (scipy/sklearn, external to the repository) and
  `gammaln` (scipy, external) are abstract function parameters;
* `scipy.optimize.minimize` (external) is an oracle parameter of type
  `Minimizer` receiving the warm-start point and the regression data and
  returning a result point together with a success flag;
* numpy random draws (`random_state.gamma`, seed extraction) are oracle
  parameters supplying the drawn matrices/vectors;
* the compiled `_hmm` extension (`_forward`, `_backward`,
  `_compute_theta_sstats`, `_compute_beta_sstats`, `_compute_log_reg_targets`)
  is part of this repository but its source is not under `src/`; those kernels
  are modelled from the specification (§4.2) and are marked
  `Modelled from the spec:` below;
* `Scseg._e_step` is embedded for the default `n_jobs = None` (one worker):
  `gen_even_slices(n, 1)` produces the single full slice, and the merge loop
  reduces to summing the per-document statistics of that slice;
* `Scseg.fit` is embedded for the default `evaluate_every <= 0` configuration
  (the optional perplexity-monitoring branch, lines 752-766, never runs then);
  the final `bound_` attribute (lines 772-777) is not part of the state.
-/

noncomputable section

namespace Scregseg

/-- Vectors indexed by `Fin n`, modelling 1-D numpy float arrays. -/
abbrev Vec (n : ℕ) : Type := Fin n → ℝ

/-- Dense `m × n` float matrices. -/
abbrev Mat (m n : ℕ) : Type := Fin m → Fin n → ℝ

/-- `EPS = np.finfo(np.float).eps` (mlda.py line 37), the float64 machine
epsilon `2 ^ (-52)`. -/
def EPS : ℝ := 1 / 2 ^ 52

/-- sklearn's `mean_change(a, b)` helper (imported at mlda.py line 27, external
to the repository): the mean absolute difference of two equal-length vectors. -/
def meanChange {K : ℕ} (a b : Vec K) : ℝ := (∑ i, |a i - b i|) / K

/-- sklearn's `_dirichlet_expectation_2d(M)` (imported at mlda.py line 27,
external): row-wise `psi(M[i, j]) - psi(sum_j M[i, j])` where `psi` is the
digamma function, passed here as an abstract parameter. -/
def dirExp2d (psi : ℝ → ℝ) {m n : ℕ} (M : Mat m n) : Mat m n :=
  fun i j => psi (M i j) - psi (∑ j2, M i j2)

/-- The 1-row form of the Dirichlet expectation, as used on a single
document-topic vector (mlda.py lines 217-218). -/
def dirVec (psi : ℝ → ℝ) {K : ℕ} (d : Vec K) : Vec K :=
  fun k => psi (d k) - psi (∑ j, d j)

/-- `exp(E[log theta])` for one document-topic vector, the exponentiated form
kept by the plain-LDA path (mlda.py line 288 and sklearn's
`_dirichlet_expectation_1d` output buffer). -/
def expDirVec (psi : ℝ → ℝ) {K : ℕ} (d : Vec K) : Vec K :=
  fun k => Real.exp (dirVec psi d k)

/-- One sparse document row of the feature matrix `X`, in CSR form: `entries`
lists the (column index, stored count) pairs of the row in column order
(mlda.py lines 177-182), and `gaps` is that document's row of the gap matrix
`y` (total function on ℕ; positions beyond the row's extent are never
consulted by the kernels). -/
structure Doc (W : ℕ) where
  entries : List (Fin W × ℝ)
  gaps : ℕ → ℝ

/-- The count of the `t`-th active bin of a document (`cnts[t]`), `0` out of
range. -/
def docCnt {W : ℕ} (doc : Doc W) (t : ℕ) : ℝ :=
  ((doc.entries[t]?).map Prod.snd).getD 0

/-- The column of `exp_topic_word_distr`/`expected_log_topic_word_distr`
restricted to the document's `t`-th active bin
(`expected_log_topic_word_d = expected_log_topic_word_distr[:, ids]`,
mlda.py line 189). -/
def docElogBeta {K W : ℕ} (M : Mat K W) (doc : Doc W) (k : Fin K) (t : ℕ) : ℝ :=
  ((doc.entries[t]?).map (fun e => M k e.1)).getD 0

/-- The E-step transition-penalty argument for one gap (mlda.py lines 196-197):
`log_sig_arg = y * reg_weights[1] + reg_weights[0]`, overwritten with the
constant `100.` wherever the gap strictly exceeds `max_dist`. -/
def logSigArgE (regW : Vec 2) (maxDist gap : ℝ) : ℝ :=
  if maxDist < gap then 100 else gap * regW 1 + regW 0

/-- The transition-penalty argument as computed inside
`Scseg.compute_likelihood` (mlda.py line 861):
`log_sig_arg = y * reg_weights_[1] + reg_weights_[0]`, with no
maximum-distance masking. -/
def logSigArgScore (regW : Vec 2) (gap : ℝ) : ℝ :=
  gap * regW 1 + regW 0

/-- The per-document penalty-argument vector of the E-step. -/
def docSigArgE {W : ℕ} (regW : Vec 2) (maxDist : ℝ) (doc : Doc W) : ℕ → ℝ :=
  fun i => logSigArgE regW maxDist (doc.gaps i)

/-- The per-document penalty-argument vector of `compute_likelihood`. -/
def docSigArgScore {W : ℕ} (regW : Vec 2) (doc : Doc W) : ℕ → ℝ :=
  fun i => logSigArgScore regW (doc.gaps i)

/-- `log(sigmoid(x))`, the log-space transition weight derived from a penalty
argument. -/
def logSigmoid (x : ℝ) : ℝ := -Real.log (1 + Real.exp (-x))

/-- Modelled from the spec: `_forward` of the compiled `_hmm` extension (its
source is not under `src/`).  Per spec §4.2, the forward lattice `F[t, k, s]`
over (bin, topic, binary continuation flag) combines, in log space, the
emission log-weight at `t`, the document-topic log-weight, and the transition
penalty from `t-1`; the base case at `t = 0` uses only the document-topic and
emission terms, and the penalty's sign flips between the "fresh start"
(`s = 0`) and "continuation" (`s = 1`) transition classes. -/
def hmmFwd (K : ℕ) (cnts : ℕ → ℝ) (elogTheta : Vec K) (elogBeta : Fin K → ℕ → ℝ)
    (sigArg : ℕ → ℝ) : ℕ → Fin K → Fin 2 → ℝ
  | 0, k, _ => elogTheta k + cnts 0 * elogBeta k 0
  | t + 1, k, s =>
    if s = 0 then
      Real.log (∑ k2 : Fin K, ∑ s2 : Fin 2,
          Real.exp (hmmFwd K cnts elogTheta elogBeta sigArg t k2 s2)) +
        logSigmoid (sigArg t) + elogTheta k + cnts (t + 1) * elogBeta k (t + 1)
    else
      Real.log (∑ s2 : Fin 2,
          Real.exp (hmmFwd K cnts elogTheta elogBeta sigArg t k s2)) +
        logSigmoid (-sigArg t) + cnts (t + 1) * elogBeta k (t + 1)

/-- Modelled from the spec: the backward lattice of `_backward` (compiled
`_hmm` extension, not under `src/`), indexed from the end of the active-bin
sequence (`j` positions before the last bin). -/
def hmmBwdAux (K L : ℕ) (cnts : ℕ → ℝ) (elogTheta : Vec K)
    (elogBeta : Fin K → ℕ → ℝ) (sigArg : ℕ → ℝ) : ℕ → Fin K → ℝ
  | 0, _ => 0
  | j + 1, k =>
    Real.log (Real.exp (hmmBwdAux K L cnts elogTheta elogBeta sigArg j k +
          cnts (L - 1 - j) * elogBeta k (L - 1 - j) + logSigmoid (-sigArg (L - 2 - j))) +
      ∑ k2 : Fin K, Real.exp (hmmBwdAux K L cnts elogTheta elogBeta sigArg j k2 +
          elogTheta k2 + cnts (L - 1 - j) * elogBeta k2 (L - 1 - j) +
          logSigmoid (sigArg (L - 2 - j))))

/-- Modelled from the spec: `_backward` (`B[t, k]`, computed from `t = L-1`
down to `0`). -/
def hmmBwd (K L : ℕ) (cnts : ℕ → ℝ) (elogTheta : Vec K)
    (elogBeta : Fin K → ℕ → ℝ) (sigArg : ℕ → ℝ) (t : ℕ) : Fin K → ℝ :=
  hmmBwdAux K L cnts elogTheta elogBeta sigArg (L - 1 - t)

/-- Modelled from the spec: the unnormalised posterior weight of topic `k` at
bin `t`, `exp(F[t,k,0] + B[t,k]) + exp(F[t,k,1] + B[t,k])` (spec §4.2:
"proportional to `F[t,k,·] + B[t,k]`"). -/
def hmmPostOf {K : ℕ} (F : ℕ → Fin K → Fin 2 → ℝ) (B : ℕ → Fin K → ℝ)
    (t : ℕ) (k : Fin K) : ℝ :=
  Real.exp (F t k 0 + B t k) + Real.exp (F t k 1 + B t k)

/-- Modelled from the spec: `_compute_theta_sstats` — the per-topic expected
assignment count, summing over bins the bin's observed count times the
posterior weight normalised over topics. -/
def hmmThetaStats {K : ℕ} (F : ℕ → Fin K → Fin 2 → ℝ) (B : ℕ → Fin K → ℝ)
    (cnts : ℕ → ℝ) (L : ℕ) : Vec K :=
  fun k => ∑ t ∈ Finset.range L,
    cnts t * hmmPostOf F B t k / (∑ k2, hmmPostOf F B t k2)

/-- Modelled from the spec: `_forward` called with the scoring flag set
(mlda.py line 863 passes `1`): it returns the document log-likelihood, the
log-sum-exp of the final forward column (0 for an empty document). -/
def hmmScore (K : ℕ) (cnts : ℕ → ℝ) (elogTheta : Vec K)
    (elogBeta : Fin K → ℕ → ℝ) (sigArg : ℕ → ℝ) (L : ℕ) : ℝ :=
  if L = 0 then 0
  else Real.log (∑ k : Fin K, ∑ s : Fin 2,
    Real.exp (hmmFwd K cnts elogTheta elogBeta sigArg (L - 1) k s))

/-- The shared inner fixed-point loop of `_update_doc_distribution_lda`
(mlda.py lines 314-329) and `_update_doc_distribution_markovlda` (lines
200-221): `for _ in range(maxIters): last = obs s; s = body s;
if mean_change(last, obs s) < tol: break`.  The loop is a total function —
reaching the iteration cap is not an error, the current state simply stands. -/
def emDocLoop {σ : Type} {K : ℕ} (body : σ → σ) (obs : σ → Vec K) (tol : ℝ) :
    ℕ → σ → σ
  | 0, s => s
  | n + 1, s =>
    let s2 := body s
    if meanChange (obs s) (obs s2) < tol then s2
    else emDocLoop body obs tol n s2

/-- `norm_phi` of the plain-LDA path at one active bin (mlda.py lines 319,
335): `dot(exp_doc_topic_d, exp_topic_word_d) + EPS`. -/
def ldaNormPhi {K W : ℕ} (expD : Vec K) (expBeta : Mat K W) (w : Fin W) : ℝ :=
  (∑ k, expD k * expBeta k w) + EPS

/-- One iteration of the plain-LDA per-document fixed point (mlda.py lines
314-326).  The loop state is the pair `(doc_topic_d, exp_doc_topic_d)`. -/
def ldaBody (psi : ℝ → ℝ) {K W : ℕ} (expBeta : Mat K W) (prior : ℝ)
    (doc : Doc W) (s : Vec K × Vec K) : Vec K × Vec K :=
  let d2 : Vec K := fun k =>
    s.2 k * ((doc.entries.map
      (fun e => e.2 / ldaNormPhi s.2 expBeta e.1 * expBeta k e.1)).sum) + prior
  (d2, expDirVec psi d2)

/-- The plain-LDA per-document fixed point: final
`(doc_topic_d, exp_doc_topic_d)` pair after the loop (mlda.py lines 308-330;
the initial `exp_doc_topic_d` comes from line 288's row-wise exponentiated
Dirichlet expectation). -/
def ldaDocFinal (psi : ℝ → ℝ) {K W : ℕ} (expBeta : Mat K W) (prior : ℝ)
    (maxIters : ℕ) (tol : ℝ) (d0 : Vec K) (doc : Doc W) : Vec K × Vec K :=
  emDocLoop (ldaBody psi expBeta prior doc) Prod.fst tol maxIters
    (d0, expDirVec psi d0)

/-- The document's contribution to the plain-LDA sufficient statistics
(mlda.py lines 334-336): `suff_stats[:, ids] +=
outer(exp_doc_topic_d, cnts / norm_phi) * exp_topic_word_d`, with `norm_phi`
recomputed from the final `exp_doc_topic_d`. -/
def ldaDocStats (psi : ℝ → ℝ) {K W : ℕ} (expBeta : Mat K W) (prior : ℝ)
    (maxIters : ℕ) (tol : ℝ) (d0 : Vec K) (doc : Doc W) : Mat K W :=
  let f := ldaDocFinal psi expBeta prior maxIters tol d0 doc
  fun k w => ((doc.entries.map (fun e =>
    if e.1 = w then f.2 k * (e.2 / ldaNormPhi f.2 expBeta e.1) * expBeta k e.1
    else 0)).sum)

/-- The forward lattice of one Markov-LDA document for a given current
expected-log document-topic vector (mlda.py line 207). -/
def markovLatticeF {K W : ℕ} (elogComp : Mat K W) (regW : Vec 2) (maxDist : ℝ)
    (doc : Doc W) (elogD : Vec K) : ℕ → Fin K → Fin 2 → ℝ :=
  hmmFwd K (docCnt doc) elogD (docElogBeta elogComp doc)
    (docSigArgE regW maxDist doc)

/-- The backward lattice of one Markov-LDA document (mlda.py line 206). -/
def markovLatticeB {K W : ℕ} (elogComp : Mat K W) (regW : Vec 2) (maxDist : ℝ)
    (doc : Doc W) (elogD : Vec K) : ℕ → Fin K → ℝ :=
  fun t => hmmBwd K doc.entries.length (docCnt doc) elogD
    (docElogBeta elogComp doc) (docSigArgE regW maxDist doc) t

/-- One iteration of the Markov-LDA per-document fixed point (mlda.py lines
200-221): forward-backward with the current `expected_log_doc_topic_d`, theta
sufficient statistics, add the document-topic prior, recompute the expected
log document-topic vector.  The loop state is the pair
`(doc_topic_d, expected_log_doc_topic_d)`. -/
def markovBody (psi : ℝ → ℝ) {K W : ℕ} (elogComp : Mat K W) (prior : ℝ)
    (regW : Vec 2) (maxDist : ℝ) (doc : Doc W) (s : Vec K × Vec K) :
    Vec K × Vec K :=
  let F := markovLatticeF elogComp regW maxDist doc s.2
  let B := markovLatticeB elogComp regW maxDist doc s.2
  let d2 : Vec K := fun k =>
    hmmThetaStats F B (docCnt doc) doc.entries.length k + prior
  (d2, dirVec psi d2)

/-- The Markov-LDA per-document fixed point (mlda.py lines 186-222; the
initial expected log vector comes from line 161, unexponentiated). -/
def markovDocFinal (psi : ℝ → ℝ) {K W : ℕ} (elogComp : Mat K W) (prior : ℝ)
    (regW : Vec 2) (maxDist : ℝ) (maxIters : ℕ) (tol : ℝ) (d0 : Vec K)
    (doc : Doc W) : Vec K × Vec K :=
  emDocLoop (markovBody psi elogComp prior regW maxDist doc) Prod.fst tol
    maxIters (d0, dirVec psi d0)

/-- The document's contribution to the Markov-LDA emission sufficient
statistics (mlda.py lines 226-233): one more forward-backward pass with the
final expected log document-topic vector, then `_compute_beta_sstats`
(modelled from the spec: per (topic, feature), count times the normalised
posterior weight at each bin mapping to that feature). -/
def markovDocStats (psi : ℝ → ℝ) {K W : ℕ} (elogComp : Mat K W) (prior : ℝ)
    (regW : Vec 2) (maxDist : ℝ) (maxIters : ℕ) (tol : ℝ) (d0 : Vec K)
    (doc : Doc W) : Mat K W :=
  let f := markovDocFinal psi elogComp prior regW maxDist maxIters tol d0 doc
  let F := markovLatticeF elogComp regW maxDist doc f.2
  let B := markovLatticeB elogComp regW maxDist doc f.2
  fun k w => ((doc.entries.enum.map (fun te =>
    if te.2.1 = w then
      docCnt doc te.1 * hmmPostOf F B te.1 k / (∑ k2, hmmPostOf F B te.1 k2)
    else 0)).sum)

/-- Modelled from the spec: `_compute_log_reg_targets` (mlda.py lines
235-239) — per adjacent-bin pair, the expected indicator that the topic label
did not carry over (the "fresh start" share of the posterior mass at the
following bin); positions at or beyond the last gap keep the zero
initialisation of `dist_targets`. -/
def markovDocRegT (psi : ℝ → ℝ) {K W : ℕ} (elogComp : Mat K W) (prior : ℝ)
    (regW : Vec 2) (maxDist : ℝ) (maxIters : ℕ) (tol : ℝ) (d0 : Vec K)
    (doc : Doc W) : ℕ → ℝ :=
  let f := markovDocFinal psi elogComp prior regW maxDist maxIters tol d0 doc
  let F := markovLatticeF elogComp regW maxDist doc f.2
  let B := markovLatticeB elogComp regW maxDist doc f.2
  fun t => if t + 1 < doc.entries.length then
      (∑ k, Real.exp (F (t + 1) k 0 + B (t + 1) k)) /
        (∑ k, hmmPostOf F B (t + 1) k)
    else 0

/-- The per-document initial `doc_topic_distr` row (mlda.py lines 155-158 and
282-285): gamma draws from the random state when one is supplied (training,
modelled by the oracle `rinit`), the constant all-ones vector otherwise. -/
def docInit {K : ℕ} (rinit : Option (ℕ → Vec K)) (i : ℕ) : Vec K :=
  match rinit with
  | some f => f i
  | none => fun _ => 1

/-- The final per-document loop state, dispatching on the learning mode the
way `_update_doc_distribution` does (mlda.py lines 102-112). -/
def docFinal (psi : ℝ → ℝ) {K W : ℕ} (markov : Bool) (expBeta : Mat K W)
    (prior : ℝ) (regW : Vec 2) (maxDist : ℝ) (maxIters : ℕ) (tol : ℝ)
    (d0 : Vec K) (doc : Doc W) : Vec K × Vec K :=
  if markov then markovDocFinal psi expBeta prior regW maxDist maxIters tol d0 doc
  else ldaDocFinal psi expBeta prior maxIters tol d0 doc

/-- The per-document sufficient-statistics contribution, dispatching on the
learning mode. -/
def docContrib (psi : ℝ → ℝ) {K W : ℕ} (markov : Bool) (expBeta : Mat K W)
    (prior : ℝ) (regW : Vec 2) (maxDist : ℝ) (maxIters : ℕ) (tol : ℝ)
    (d0 : Vec K) (doc : Doc W) : Mat K W :=
  if markov then
    markovDocStats psi expBeta prior regW maxDist maxIters tol d0 doc
  else ldaDocStats psi expBeta prior maxIters tol d0 doc

/-- The result triple of `_update_doc_distribution`
(`doc_topic_distr, suff_stats, dist_targets`). -/
structure EStepOut (K W : ℕ) where
  rows : List (Vec K)
  stats : Option (Mat K W)
  regT : Option (List (ℕ → ℝ))

/-- `_update_doc_distribution` (mlda.py lines 67-112 dispatching to lines
114-241 / 244-338) over a list of documents: each document's row of
`doc_topic_distr` is the first component of its final loop state; when
`cal_sstats` is set, the sufficient statistics are the elementwise sum of the
per-document contributions, and (Markov mode only) the regression-target rows
are collected. -/
def updateDocDistribution (psi : ℝ → ℝ) {K W : ℕ} (markov : Bool)
    (expBeta : Mat K W) (prior : ℝ) (regW : Vec 2) (maxDist : ℝ)
    (maxIters : ℕ) (tol : ℝ) (calSstats : Bool) (rinit : Option (ℕ → Vec K))
    (docs : List (Doc W)) : EStepOut K W :=
  { rows := docs.enum.map (fun te =>
      (docFinal psi markov expBeta prior regW maxDist maxIters tol
        (docInit rinit te.1) te.2).1),
    stats := if calSstats then
        some ((docs.enum.map (fun te =>
          docContrib psi markov expBeta prior regW maxDist maxIters tol
            (docInit rinit te.1) te.2)).sum)
      else none,
    regT := if calSstats && markov then
        some (docs.enum.map (fun te =>
          markovDocRegT psi expBeta prior regW maxDist maxIters tol
            (docInit rinit te.1) te.2))
      else none }

/-- The model configuration (`Scseg.__init__` parameters after
`_check_params` resolution; the `None` priors default to
`1 / n_components`, which is assumed already substituted into the two prior
fields). -/
structure Params where
  docTopicPrior : ℝ
  topicWordPrior : ℝ
  learningDecay : ℝ
  learningOffset : ℝ
  maxIter : ℕ
  batchSize : ℕ
  meanChangeTol : ℝ
  maxDocUpdateIter : ℕ
  maxDist : ℝ
  noRegression : Bool
  online : Bool
  regWeightsParam : Option (Vec 2)

/-- The mutable fitted attributes of a `Scseg` model: `components_`,
`exp_dirichlet_component_`, `reg_weights_`, `n_batch_iter_`, `n_iter_`. -/
structure State (K W : ℕ) where
  components : Mat K W
  expDirComp : Mat K W
  regWeights : Vec 2
  nBatchIter : ℕ
  nIter : ℕ

/-- The result record of `scipy.optimize.minimize` (external): the solution
point `x` and the convergence flag `success`. -/
structure MinimizeResult where
  x : Vec 2
  success : Bool

/-- The data handed to the regression optimizer by `Scseg._em_step` (mlda.py
line 668): the per-document gap counts `l`, the gap rows `y`, the regression
targets from the E-step, and `max_dist_`. -/
structure RegData where
  lens : List ℝ
  dists : List (ℕ → ℝ)
  targets : List (ℕ → ℝ)
  maxDist : ℝ

/-- An oracle for `scipy.optimize.minimize` applied to the
`_compute_regloss_sigmoid` objective (both external to `src/`): first argument
is the warm-start weight vector `self.reg_weights_`. -/
abbrev Minimizer : Type := Vec 2 → RegData → MinimizeResult

/-- `Scseg._e_step` (mlda.py lines 557-617) for the default single worker:
the one slice covers all documents, and the merge step sums the slice's
sufficient statistics.  `random_init = False` is modelled by `rinit = none`
(line 582: the random state is replaced by `None`, so line 158/285 initialise
each document-topic row to ones).  The embedding is intended for nonempty
document batches: on a zero-document input the real `_e_step` raises in the
merge (`zip(*results)` over the empty slice list, line 603), a situation the
public entry points make unreachable (`check_array` rejects empty matrices,
`gen_batches` yields only nonempty mini-batches); the embedding totalises
that error case. -/
def eStep (psi : ℝ → ℝ) {K W : ℕ} (p : Params) (s : State K W) (markov : Bool)
    (calSstats : Bool) (rinit : Option (ℕ → Vec K)) (docs : List (Doc W)) :
    EStepOut K W :=
  updateDocDistribution psi markov s.expDirComp p.docTopicPrior s.regWeights
    p.maxDist p.maxDocUpdateIter p.meanChangeTol calSstats rinit docs

/-- `Scseg._em_step` (mlda.py lines 619-679): E-step with statistics, then
either the batch overwrite `components_ = topic_word_prior_ + suff_stats` or
the online exponentially-weighted update, then the unconditional assignment of
the optimizer's result point to `reg_weights_` when regression is active, the
refresh of `exp_dirichlet_component_`, and `n_batch_iter_ += 1`. -/
def emStep (psi : ℝ → ℝ) (minim : Minimizer) {K W : ℕ} (p : Params)
    (markov : Bool) (batchUpdate : Bool) (totalSamples : ℕ)
    (rinit : Option (ℕ → Vec K)) (docs : List (Doc W)) (s : State K W) :
    State K W :=
  let r := eStep psi p s markov true rinit docs
  let stats : Mat K W := r.stats.getD 0
  let comps : Mat K W :=
    if batchUpdate then fun k w => p.topicWordPrior + stats k w
    else fun k w =>
      (1 - (p.learningOffset + (s.nBatchIter : ℝ)) ^ (-p.learningDecay)) *
          s.components k w +
        (p.learningOffset + (s.nBatchIter : ℝ)) ^ (-p.learningDecay) *
          (p.topicWordPrior +
            (totalSamples : ℝ) / (docs.length : ℝ) * stats k w)
  let regW : Vec 2 :=
    if markov && !p.noRegression then
      (minim s.regWeights
        ⟨docs.map (fun d => (d.entries.length : ℝ)), docs.map Doc.gaps,
          r.regT.getD [], p.maxDist⟩).x
    else s.regWeights
  ⟨comps,
   (if markov then dirExp2d psi comps
    else fun k w => Real.exp (dirExp2d psi comps k w)),
   regW, s.nBatchIter + 1, s.nIter⟩

/-- `sklearn.utils.gen_batches(n, bs)` applied to a document list: contiguous
chunks of size `bs` (last one possibly shorter).  The first argument is
recursion fuel, instantiated with the list length. -/
def chunksAux {α : Type} (bs : ℕ) : ℕ → List α → List (List α)
  | 0, _ => []
  | _ + 1, [] => []
  | n + 1, a :: l => ((a :: l).take bs) :: chunksAux bs n ((a :: l).drop bs)

/-- The mini-batch partition of a document list (`gen_batches`, mlda.py line
741). -/
def chunks {α : Type} (bs : ℕ) (l : List α) : List (List α) :=
  chunksAux bs l.length l

/-- One iteration of `Scseg.fit`'s EM loop (mlda.py lines 739-770, with the
default `evaluate_every <= 0` so the perplexity branch never runs): online
mode folds `_em_step` over the mini-batches, batch mode runs one full
`_em_step`; afterwards `n_iter_ += 1`.  The oracle `rinits` supplies the gamma
draws of the `random_init=True` E-step of each `_em_step` call, indexed by the
call's `n_batch_iter_` value. -/
def fitIter (psi : ℝ → ℝ) (minim : Minimizer) {K W : ℕ} (p : Params)
    (markov : Bool) (rinits : ℕ → ℕ → Vec K) (totalSamples : ℕ)
    (docs : List (Doc W)) (s : State K W) : State K W :=
  let s2 :=
    if p.online then
      (chunks p.batchSize docs).foldl
        (fun st b =>
          emStep psi minim p markov false totalSamples
            (some (rinits st.nBatchIter)) b st) s
    else
      emStep psi minim p markov true totalSamples
        (some (rinits s.nBatchIter)) docs s
  ⟨s2.components, s2.expDirComp, s2.regWeights, s2.nBatchIter, s2.nIter + 1⟩

/-- The default regression weights `[-1., 1.]` of `_init_log_reg_vars`
(mlda.py line 551). -/
def regDefault : Vec 2 := ![(-1 : ℝ), 1]

/-- `Scseg.fit` (mlda.py lines 692-779).  `fit` unconditionally re-initialises
the latent variables (line 719-722 always call `_init_latent_vars`, which sets
`n_batch_iter_ = 1`, `n_iter_ = 0` and draws fresh `components_` — the draw or
seed extraction is the oracle argument `initC`); when `y` is supplied it also
resets `reg_weights_` from the constructor parameter (lines 730-731), while
for `y = None` the `reg_weights_` attribute of the previous state simply
survives untouched (it is then never read).  `prev` is the model's attribute
state before the call; `total_samples` is the corpus size `n_samples`.  The
final perplexity evaluation (lines 772-777) only sets `bound_`, which is not
part of the modelled state. -/
def fit (psi : ℝ → ℝ) (minim : Minimizer) {K W : ℕ} (p : Params)
    (markov : Bool) (initC : Mat K W) (rinits : ℕ → ℕ → Vec K)
    (prev : State K W) (docs : List (Doc W)) : State K W :=
  let s0 : State K W :=
    ⟨initC,
     (if markov then dirExp2d psi initC
      else fun k w => Real.exp (dirExp2d psi initC k w)),
     (if markov then p.regWeightsParam.getD regDefault else prev.regWeights),
     1, 0⟩
  (fitIter psi minim p markov rinits docs.length docs)^[p.maxIter] s0

/-- `Scseg._unnormalized_transform` (mlda.py lines 781-808): an E-step with
`cal_sstats=False`, `random_init=False` on the current fitted state. -/
def unnormalizedTransform (psi : ℝ → ℝ) {K W : ℕ} (p : Params)
    (markov : Bool) (s : State K W) (docs : List (Doc W)) : List (Vec K) :=
  (eStep psi p s markov false none docs).rows

/-- `Scseg.transform` (mlda.py lines 810-825): row-normalised unnormalized
transform. -/
def transform (psi : ℝ → ℝ) {K W : ℕ} (p : Params) (markov : Bool)
    (s : State K W) (docs : List (Doc W)) : List (Vec K) :=
  (unnormalizedTransform psi p markov s docs).map
    (fun r => fun k => r k / ∑ j, r j)

/-- A `transform` method call as a state transition: the returned value
together with the model state after the call (the Python method performs no
attribute writes, which the embedding makes explicit). -/
def transformCall (psi : ℝ → ℝ) {K W : ℕ} (p : Params) (markov : Bool)
    (s : State K W) (docs : List (Doc W)) : List (Vec K) × State K W :=
  (transform psi p markov s docs, s)

/-- `scipy.special.logsumexp` over a vector (external). -/
def logsumexpVec {n : ℕ} (v : Fin n → ℝ) : ℝ := Real.log (∑ i, Real.exp (v i))

/-- `Scseg.compute_likelihood` (mlda.py lines 827-865): per document, either
the plain-LDA term `dot(cnts, logsumexp_k(E[log theta_k] + E[log beta_k]))` or
the Markov forward score with the uncapped penalty arguments of line 861. -/
def computeLikelihood (psi : ℝ → ℝ) {K W : ℕ} (markov : Bool)
    (comps : Mat K W) (regW : Vec 2) (docs : List (Doc W))
    (docTopic : List (Vec K)) : ℝ :=
  (((docs.zip docTopic).map (fun dt =>
    if markov then
      hmmScore K (docCnt dt.1) (dirVec psi dt.2)
        (docElogBeta (dirExp2d psi comps) dt.1) (docSigArgScore regW dt.1)
        dt.1.entries.length
    else
      (dt.1.entries.map (fun e =>
        e.2 * logsumexpVec (fun k =>
          dirVec psi dt.2 k + dirExp2d psi comps k e.1))).sum)).sum)

/-- The `_loglikelihood` helper of `Scseg._approx_bound` (mlda.py lines
894-899) applied to the document-topic rows (`distr = doc_topic_distr`,
`dirichlet_distr` its row-wise Dirichlet expectation, `size = n_components`):
`sum((prior - distr) * dirichlet_distr) + sum(gammaln(distr) - gammaln(prior))
+ sum(gammaln(prior * size) - gammaln(row sums))`. -/
def loglikRows (psi gammaln : ℝ → ℝ) {K : ℕ} (prior : ℝ)
    (rows : List (Vec K)) (sz : ℕ) : ℝ :=
  ((rows.map (fun r => ∑ k,
    ((prior - r k) * dirVec psi r k + (gammaln (r k) - gammaln prior)))).sum) +
  ((rows.map (fun r => gammaln (prior * sz) - gammaln (∑ k, r k))).sum)

/-- The `_loglikelihood` helper of `Scseg._approx_bound` applied to
`components_` (`size = n_features`). -/
def loglikMat (psi gammaln : ℝ → ℝ) {K W : ℕ} (prior : ℝ) (M : Mat K W)
    (sz : ℕ) : ℝ :=
  (∑ k, ∑ w, ((prior - M k w) * dirExp2d psi M k w +
    (gammaln (M k w) - gammaln prior))) +
  (∑ k, (gammaln (prior * sz) - gammaln (∑ w, M k w)))

/-- `Scseg._approx_bound` with `sub_sampling=False` (mlda.py lines 868-918):
the data likelihood plus the theta and beta Dirichlet correction terms. -/
def approxBound (psi gammaln : ℝ → ℝ) {K W : ℕ} (p : Params) (markov : Bool)
    (s : State K W) (docs : List (Doc W)) (docTopic : List (Vec K)) : ℝ :=
  computeLikelihood psi markov s.components s.regWeights docs docTopic +
    loglikRows psi gammaln p.docTopicPrior docTopic K +
    loglikMat psi gammaln p.topicWordPrior s.components W

/-- `Scseg.score` (mlda.py lines 920-936): the approximate bound at the
unnormalized transform of the input. -/
def score (psi gammaln : ℝ → ℝ) {K W : ℕ} (p : Params) (markov : Bool)
    (s : State K W) (docs : List (Doc W)) : ℝ :=
  approxBound psi gammaln p markov s docs
    (unnormalizedTransform psi p markov s docs)

/-- A `score` method call as a state transition (the method performs no
attribute writes). -/
def scoreCall (psi gammaln : ℝ → ℝ) {K W : ℕ} (p : Params) (markov : Bool)
    (s : State K W) (docs : List (Doc W)) : ℝ × State K W :=
  (score psi gammaln p markov s docs, s)

/-- Concrete parameters for the C6 evaluation (defaults of `Scseg.__init__`
with `no_regression = False`). -/
def pC6 : Params :=
  ⟨1/2, 1/2, 7/10, 10, 10, 128, 1/1000, 100, 10 ^ 7, false, false, none⟩

/-- A concrete fitted state for the C6 evaluation, carrying the default
regression weights `[-1, 1]`. -/
def sC6 : State 1 1 := ⟨fun _ _ => 1, fun _ _ => 1, regDefault, 1, 0⟩

/-- A concrete one-entry document for the C6 evaluation (a realizable
nonempty mini-batch: `X = [[1]]` with a single gap row). -/
def docC6 : Doc 1 := ⟨[(0, 1)], fun _ => 0⟩

/-- The model parameters of the C5 evaluation: online learning, one
iteration, mini-batches of one document. -/
def pC5 : Params :=
  ⟨1/2, 1/2, 7/10, 10, 1, 1, 1/1000, 100, 10 ^ 7, false, true, none⟩

/-- A previously fitted state whose mini-batch counter stands at `5`. -/
def prevC5 : State 1 1 := ⟨fun _ _ => 1, fun _ _ => 1, regDefault, 5, 3⟩

/-- A second, different previous state (counter at `9`). -/
def prevC5b : State 1 1 := ⟨fun _ _ => 2, fun _ _ => 2, regDefault, 9, 7⟩

/-- A concrete one-entry document. -/
def docC5 : Doc 1 := ⟨[(0, 1)], fun _ => 0⟩

/-- A trivial optimizer oracle for the C5 evaluation. -/
def minC5 : Minimizer := fun w _ => ⟨w, true⟩

end Scregseg

namespace Scregseg.CM

/-!
Embedding of `src/src/scregseg/countmatrix.py`'s `CountMatrix` class.  The
scipy sparse matrix is modelled by its shape together with a total entry
function (entries are exact rationals); the pandas region and cell annotation
tables are lists of records.  A pandas row keeps its original index label
(`RegionRow.label`), which `remove_chroms` uses for row selection exactly as
the source does. -/

/-- A scipy sparse count matrix, reduced to its shape and entries. -/
structure SMat where
  rows : ℕ
  cols : ℕ
  entry : ℕ → ℕ → ℚ

/-- One row of the region annotation table (`chrom`, `start`, `end` columns
plus the pandas index label). -/
structure RegionRow where
  chrom : String
  start : ℕ
  stop : ℕ
  label : ℕ

/-- One row of the cell annotation table (the `cell` column, and the optional
`sample` column added by `merge`). -/
structure CellRow where
  cell : String
  sample : Option String

/-- The `CountMatrix` object: count matrix, region annotation, cell
annotation. -/
structure CountMatrix where
  cmat : SMat
  regions : List RegionRow
  cannot : List CellRow

/-- The shape-consistency invariant asserted by `CountMatrix.__init__`
(countmatrix.py lines 675-676): one matrix row per region annotation entry and
one matrix column per cell annotation entry. -/
abbrev Inv (cm : CountMatrix) : Prop :=
  cm.cmat.rows = cm.regions.length ∧ cm.cmat.cols = cm.cannot.length

/-- `CountMatrix.__init__` (countmatrix.py lines 667-676): the two `assert`
statements make construction fail unless the shape invariant holds, modelled
by an `Option` result. -/
def mkCountMatrix (m : SMat) (reg : List RegionRow) (can : List CellRow) :
    Option CountMatrix :=
  if m.rows = reg.length ∧ m.cols = can.length then some ⟨m, reg, can⟩
  else none

/-- Positional row selection `cmat[idx]` on a sparse matrix. -/
def selectRows (m : SMat) (idx : List ℕ) : SMat :=
  ⟨idx.length, m.cols, fun i j => m.entry (idx.getD i 0) j⟩

/-- Positional column selection `cmat[:, idx]`. -/
def selectCols (m : SMat) (idx : List ℕ) : SMat :=
  ⟨m.rows, idx.length, fun i j => m.entry i (idx.getD j 0)⟩

/-- `CountMatrix.remove_chroms` (countmatrix.py lines 678-683): keep the
region rows whose chromosome is not listed, select the matrix rows by the kept
rows' pandas index labels, keep the cell annotation. -/
def removeChroms (cm : CountMatrix) (chroms : List String) : CountMatrix :=
  let keep := cm.regions.filter (fun r => !(chroms.contains r.chrom))
  ⟨selectRows cm.cmat (keep.map RegionRow.label), keep, cm.cannot⟩

/-- A column sum `cmat.sum(axis=0)[j]`. -/
def colSum (m : SMat) (j : ℕ) : ℚ :=
  ((List.range m.rows).map (fun i => m.entry i j)).sum

/-- A row sum `cmat.sum(axis=1)[i]`. -/
def rowSum (m : SMat) (i : ℕ) : ℚ :=
  ((List.range m.cols).map (fun j => m.entry i j)).sum

/-- `sys.maxsize`, the default upper threshold of `filter_count_matrix`. -/
def MAXSIZE : ℚ := 2 ^ 63 - 1

/-- The binarize/trim preprocessing of `filter_count_matrix` (countmatrix.py
lines 800-806): the copy's stored entries above zero become one when
`binarize` is set, and positions whose entry in the *original* matrix exceeds
a positive `trimcount` are overwritten with `trimcount`. -/
def binarizeTrim (m : SMat) (binarize : Bool) (trim : Option ℚ) : SMat :=
  ⟨m.rows, m.cols, fun i j =>
    let v := if binarize ∧ 0 < m.entry i j then 1 else m.entry i j
    match trim with
    | some t => if 0 < t ∧ t < m.entry i j then t else v
    | none => v⟩

/-- A default cell row for positional lookups. -/
def cellDefault : CellRow := ⟨"", none⟩

/-- A default region row for positional lookups. -/
def regionDefault : RegionRow := ⟨"", 0, 0, 0⟩

/-- `CountMatrix.filter_count_matrix` (countmatrix.py lines 755-818): resolve
the `None` thresholds, binarize/trim a copy, keep the columns whose counts are
within the cell thresholds and whose cell name is not `'dummy'`, then keep the
rows whose counts (of the column-filtered matrix) are within the region
thresholds; annotation tables are subset with the same index lists. -/
def filterCountMatrix (cm : CountMatrix) (minCell maxCell minRegion maxRegion :
    Option ℚ) (binarize : Bool) (trim : Option ℚ) : CountMatrix :=
  let mnc := minCell.getD 0
  let mxc := maxCell.getD MAXSIZE
  let mnr := minRegion.getD 0
  let mxr := maxRegion.getD MAXSIZE
  let m1 := binarizeTrim cm.cmat binarize trim
  let keepcells := (List.range m1.cols).filter (fun j =>
    decide (mnc ≤ colSum m1 j) && decide (colSum m1 j ≤ mxc) &&
      ((cm.cannot.getD j cellDefault).cell != "dummy"))
  let m2 := selectCols m1 keepcells
  let can2 := keepcells.map (fun j => cm.cannot.getD j cellDefault)
  let keepregions := (List.range m2.rows).filter (fun i =>
    decide (mnr ≤ rowSum m2 i) && decide (rowSum m2 i ≤ mxr))
  ⟨selectRows m2 keepregions, keepregions.map (fun i =>
    cm.regions.getD i regionDefault), can2⟩

/-- The per-input-matrix cell-annotation preparation of `CountMatrix.merge`
(countmatrix.py lines 708-716): when a row has no `sample` value, it receives
the supplied label for matrix `i`, or the default `sample_i`. -/
def addSampleColumn (i : ℕ) (lbl : Option (List String))
    (rows : List CellRow) : List CellRow :=
  rows.map (fun c =>
    match c.sample with
    | some s => ⟨c.cell, some s⟩
    | none => ⟨c.cell,
        some (((lbl.bind (fun L => L[i]?)).getD ("sample_" ++ toString i)))⟩)

/-- `scipy.sparse.hstack` entry lookup: walk the blocks left to right. -/
def hstackEntry : List SMat → ℕ → ℕ → ℚ
  | [], _, _ => 0
  | m :: rest, i, j => if j < m.cols then m.entry i j
    else hstackEntry rest i (j - m.cols)

/-- A zero matrix (the `headD` fallback for empty merge inputs). -/
def emptySMat : SMat := ⟨0, 0, fun _ _ => 0⟩

/-- `scipy.sparse.hstack`: columns are concatenated; the row count is the
first block's (the source requires all blocks to share it — `hstack` raises
otherwise, a case on which `merge` then returns nothing to check). -/
def hstackMats (ms : List SMat) : SMat :=
  ⟨(ms.headD emptySMat).rows, (ms.map SMat.cols).sum, hstackEntry ms⟩

/-- An empty `CountMatrix` (the `headD` fallback). -/
def emptyCM : CountMatrix := ⟨emptySMat, [], []⟩

/-- `CountMatrix.merge` (countmatrix.py lines 692-719): horizontal stack of
the count matrices, the first input's regions, and the concatenation of the
sample-labelled cell annotations. -/
def merge (cms : List CountMatrix) (lbl : Option (List String)) : CountMatrix :=
  ⟨hstackMats (cms.map CountMatrix.cmat),
   (cms.headD emptyCM).regions,
   ((cms.enum.map (fun ic => addSampleColumn ic.1 lbl ic.2.cannot)).flatten)⟩

/-- `CountMatrix.pseudobulk` (countmatrix.py lines 820-847): `pairs` is the
zipped (cell, group) input; for each distinct group label, sum the columns of
the cells that belong to it; the new cell annotation has one row per group. -/
def pseudobulk (cm : CountMatrix) (pairs : List (String × String)) :
    CountMatrix :=
  let groups := (pairs.map Prod.snd).dedup
  let ids := fun g => (List.range cm.cannot.length).filter (fun j =>
    pairs.any (fun pr =>
      pr.2 == g && pr.1 == (cm.cannot.getD j cellDefault).cell))
  ⟨⟨cm.cmat.rows, groups.length, fun r i =>
      (((ids (groups.getD i "")).map (fun j => cm.cmat.entry r j))).sum⟩,
   cm.regions,
   groups.map (fun g => ⟨g, none⟩)⟩

/-- `CountMatrix.subset` (countmatrix.py lines 854-875): positions of the
cells whose name is listed select the matrix columns, and the cell annotation
is filtered by the same predicate. -/
def subset (cm : CountMatrix) (cells : List String) : CountMatrix :=
  let ids := (List.range cm.cannot.length).filter (fun j =>
    cells.contains (cm.cannot.getD j cellDefault).cell)
  ⟨selectCols cm.cmat ids, cm.regions,
   cm.cannot.filter (fun c => cells.contains c.cell)⟩

end Scregseg.CM


namespace Scregseg

/-! ### Shared helper lemmas -/

lemma emDocLoop_conv_aux {σ : Type} {K : ℕ} (body : σ → σ) (obs : σ → Vec K)
    (tol : ℝ) :
    ∀ (n m : ℕ) (s0 : σ), m < n →
      meanChange (obs (body^[m] s0)) (obs (body^[m + 1] s0)) < tol →
      (∀ j, j < m →
        ¬ meanChange (obs (body^[j] s0)) (obs (body^[j + 1] s0)) < tol) →
      emDocLoop body obs tol n s0 = body^[m + 1] s0 := by
  intro n
  induction n with
  | zero => intro m s0 h; exact absurd h (Nat.not_lt_zero m)
  | succ n ih =>
    intro m s0 hm hc hmin
    match m with
    | 0 =>
      simp only [emDocLoop]
      rw [if_pos (by simpa using hc)]
      simp
    | m + 1 =>
      have h0 := hmin 0 (Nat.succ_pos m)
      simp only [emDocLoop]
      rw [if_neg (by simpa using h0)]
      have hres := ih m (body s0) (by omega)
        (by simpa [Function.iterate_succ_apply] using hc)
        (fun j hj => by
          simpa [Function.iterate_succ_apply] using hmin (j + 1) (by omega))
      simpa [Function.iterate_succ_apply] using hres

lemma emDocLoop_cap_aux {σ : Type} {K : ℕ} (body : σ → σ) (obs : σ → Vec K)
    (tol : ℝ) :
    ∀ (n : ℕ) (s0 : σ),
      (∀ j, j < n →
        ¬ meanChange (obs (body^[j] s0)) (obs (body^[j + 1] s0)) < tol) →
      emDocLoop body obs tol n s0 = body^[n] s0 := by
  intro n
  induction n with
  | zero => intro s0 _; rfl
  | succ n ih =>
    intro s0 hall
    have h0 := hall 0 (Nat.succ_pos n)
    simp only [emDocLoop]
    rw [if_neg (by simpa using h0)]
    have hres := ih (body s0) (fun j hj => by
      simpa [Function.iterate_succ_apply] using hall (j + 1) (by omega))
    simpa [Function.iterate_succ_apply] using hres

lemma emDocLoop_exists_iterate {σ : Type} {K : ℕ} (body : σ → σ)
    (obs : σ → Vec K) (tol : ℝ) :
    ∀ (n : ℕ) (s0 : σ), ∃ m, m ≤ n ∧ (1 ≤ n → 1 ≤ m) ∧
      emDocLoop body obs tol n s0 = body^[m] s0 := by
  intro n
  induction n with
  | zero => intro s0; exact ⟨0, le_refl 0, by omega, rfl⟩
  | succ n ih =>
    intro s0
    simp only [emDocLoop]
    by_cases h : meanChange (obs s0) (obs (body s0)) < tol
    · exact ⟨1, by omega, by omega, by rw [if_pos h]; simp⟩
    · obtain ⟨m, hm, _, heq⟩ := ih (body s0)
      exact ⟨m + 1, by omega, by omega, by
        rw [if_neg h]
        simpa [Function.iterate_succ_apply] using heq⟩

lemma emDocLoop_invar {σ : Type} {K : ℕ} (body : σ → σ) (obs : σ → Vec K)
    (tol : ℝ) (P : σ → Prop) (hP : ∀ s, P s → P (body s)) :
    ∀ (n : ℕ) (s0 : σ), P s0 → P (emDocLoop body obs tol n s0) := by
  intro n
  induction n with
  | zero => intro s0 h; exact h
  | succ n ih =>
    intro s0 h
    simp only [emDocLoop]
    by_cases hc : meanChange (obs s0) (obs (body s0)) < tol
    · rw [if_pos hc]; exact hP s0 h
    · rw [if_neg hc]; exact ih (body s0) (hP s0 h)

lemma emDocLoop_post {σ : Type} {K : ℕ} (body : σ → σ) (obs : σ → Vec K)
    (tol : ℝ) (P : σ → Prop) (hP : ∀ s, P (body s)) :
    ∀ (n : ℕ) (s0 : σ), 1 ≤ n → P (emDocLoop body obs tol n s0) := by
  intro n s0 hn
  obtain ⟨m, _, hm1, heq⟩ := emDocLoop_exists_iterate body obs tol n s0
  rw [heq]
  match m, hm1 hn with
  | m + 1, _ =>
    rw [Function.iterate_succ_apply']
    exact hP _

/-! ### C3: the per-document fixed point stops at the first of
tolerance-convergence or the iteration cap -/

/-- C3: the per-document E-step loop (shared by
`_update_doc_distribution_lda`, mlda.py lines 314-329, and
`_update_doc_distribution_markovlda`, lines 200-221, as witnessed by the last
two conjuncts) terminates at the first iteration whose mean absolute change
falls below `mean_change_tol`, or after exactly `max_doc_update_iter`
iterations otherwise; either way the last computed state is returned (and
stored as the document's row).  `emDocLoop` is a total function — the
iteration cap produces a value, never an error. -/
theorem emDocLoop_first_stop {σ : Type} {K : ℕ} (body : σ → σ)
    (obs : σ → Vec K) (tol : ℝ) (maxIters : ℕ) (s0 : σ) :
    (∀ m, m < maxIters →
      meanChange (obs (body^[m] s0)) (obs (body^[m + 1] s0)) < tol →
      (∀ j, j < m →
        ¬ meanChange (obs (body^[j] s0)) (obs (body^[j + 1] s0)) < tol) →
      emDocLoop body obs tol maxIters s0 = body^[m + 1] s0) ∧
    ((∀ j, j < maxIters →
        ¬ meanChange (obs (body^[j] s0)) (obs (body^[j + 1] s0)) < tol) →
      emDocLoop body obs tol maxIters s0 = body^[maxIters] s0) ∧
    (∀ (psi : ℝ → ℝ) (K2 W : ℕ) (expBeta : Mat K2 W) (prior : ℝ) (maxIt : ℕ)
      (tol2 : ℝ) (d0 : Vec K2) (doc : Doc W),
      ldaDocFinal psi expBeta prior maxIt tol2 d0 doc =
        emDocLoop (ldaBody psi expBeta prior doc) Prod.fst tol2 maxIt
          (d0, expDirVec psi d0)) ∧
    (∀ (psi : ℝ → ℝ) (K2 W : ℕ) (elogComp : Mat K2 W) (prior : ℝ)
      (regW : Vec 2) (maxDist : ℝ) (maxIt : ℕ) (tol2 : ℝ) (d0 : Vec K2)
      (doc : Doc W),
      markovDocFinal psi elogComp prior regW maxDist maxIt tol2 d0 doc =
        emDocLoop (markovBody psi elogComp prior regW maxDist doc) Prod.fst
          tol2 maxIt (d0, dirVec psi d0)) := by
  refine ⟨?_, ?_, ?_, ?_⟩
  · intro m hm hc hmin
    exact emDocLoop_conv_aux body obs tol maxIters m s0 hm hc hmin
  · intro hall
    exact emDocLoop_cap_aux body obs tol maxIters s0 hall
  · intro psi K2 W expBeta prior maxIt tol2 d0 doc; rfl
  · intro psi K2 W elogComp prior regW maxDist maxIt tol2 d0 doc; rfl

theorem emDocLoop_first_stop_witness :
    emDocLoop (σ := Vec 1) id id 1 1 (fun _ => 0) = id^[0 + 1] (fun _ => 0) :=
  (emDocLoop_first_stop (σ := Vec 1) id id 1 1 (fun _ => 0)).1 0 (by norm_num)
    (by simp [meanChange]) (fun j hj => absurd hj (Nat.not_lt_zero j))

/-! ### C4: maximum-distance capping of the transition penalty -/

/-- C4 counterexample: with `reg_weights_ = [0, -1]` and `max_dist = 10`, a
gap of `11` (strictly greater than `max_dist`) yields the capped argument
`100` inside the E-step (mlda.py lines 196-197), but
`Scseg.compute_likelihood` (line 861) computes the raw linear argument `-11`,
which differs from the capped value — refuting the claim that the capping rule
holds in the likelihood/score computation as well. -/
theorem logSigArg_score_uncapped_cex :
    logSigArgE ![(0 : ℝ), -1] 10 11 = 100 ∧
    logSigArgScore ![(0 : ℝ), -1] 11 = -11 ∧
    ¬ logSigArgScore ![(0 : ℝ), -1] 11 = logSigArgE ![(0 : ℝ), -1] 10 11 := by
  have h1 : logSigArgE ![(0 : ℝ), -1] 10 11 = 100 := by
    rw [logSigArgE, if_pos (by norm_num)]
  have h2 : logSigArgScore ![(0 : ℝ), -1] 11 = -11 := by
    simp [logSigArgScore]
  refine ⟨h1, h2, ?_⟩
  rw [h1, h2]
  norm_num

/-- C4 amended: in the E-step penalty computation (mlda.py lines 196-197), any
gap strictly greater than `max_dist` yields the fixed argument `100`,
independently of the current slope and intercept in `reg_weights_`; the
likelihood/score computation (line 861), by contrast, applies the raw linear
formula with no capping. -/
theorem logSigArgE_capped (regW regW2 : Vec 2) (maxDist gap : ℝ)
    (h : maxDist < gap) :
    logSigArgE regW maxDist gap = 100 ∧
    logSigArgE regW maxDist gap = logSigArgE regW2 maxDist gap ∧
    (∀ w : Vec 2, logSigArgScore w gap = gap * w 1 + w 0) := by
  refine ⟨by rw [logSigArgE, if_pos h], ?_, fun w => rfl⟩
  rw [logSigArgE, if_pos h, logSigArgE, if_pos h]

theorem logSigArgE_capped_witness :
    logSigArgE ![(5 : ℝ), 7] 10 11 = 100 :=
  (logSigArgE_capped ![(5 : ℝ), 7] ![(2 : ℝ), 3] 10 11 (by norm_num)).1

/-! ### C1: batch M-step overwrites `components_` -/

/-- C1: in batch mode, `Scseg._em_step` (mlda.py lines 649-650) replaces
`components_` with `topic_word_prior_` plus the elementwise sum of the
per-document sufficient statistics of that iteration's E-step (the sum the
E-step merge computes, second conjunct); the result does not depend on the
previous `components_` value (third conjunct: replacing it by any matrix `c`
leaves the updated `components_` unchanged — the E-step reads only
`exp_dirichlet_component_`). -/
theorem emStep_batch_overwrite (psi : ℝ → ℝ) (minim : Minimizer) {K W : ℕ}
    (p : Params) (markov : Bool) (totalSamples : ℕ)
    (rinit : Option (ℕ → Vec K)) (docs : List (Doc W)) (s : State K W) :
    (emStep psi minim p markov true totalSamples rinit docs s).components =
      (fun k w => p.topicWordPrior +
        ((docs.enum.map (fun te =>
          docContrib psi markov s.expDirComp p.docTopicPrior s.regWeights
            p.maxDist p.maxDocUpdateIter p.meanChangeTol
            (docInit rinit te.1) te.2)).sum) k w) ∧
    (eStep psi p s markov true rinit docs).stats =
      some ((docs.enum.map (fun te =>
        docContrib psi markov s.expDirComp p.docTopicPrior s.regWeights
          p.maxDist p.maxDocUpdateIter p.meanChangeTol
          (docInit rinit te.1) te.2)).sum) ∧
    (∀ c : Mat K W,
      (emStep psi minim p markov true totalSamples rinit docs
        ⟨c, s.expDirComp, s.regWeights, s.nBatchIter, s.nIter⟩).components =
      (emStep psi minim p markov true totalSamples rinit docs s).components) :=
  ⟨rfl, rfl, fun _ => rfl⟩

/-! ### C2: online M-step update -/

/-- C2: in online mode, `Scseg._em_step` (mlda.py lines 651-659, 678) computes
the weight `rho = (learning_offset + n_batch_iter_) ^ (-learning_decay)`, sets
`components_` to `(1 - rho) * components_ + rho * (topic_word_prior +
doc_ratio * suff_stats)` with `doc_ratio = total_samples / (mini-batch size)`,
where `suff_stats` is the E-step's per-document sum (third conjunct), and then
increments `n_batch_iter_` by exactly one (second conjunct). -/
theorem emStep_online_update (psi : ℝ → ℝ) (minim : Minimizer) {K W : ℕ}
    (p : Params) (markov : Bool) (totalSamples : ℕ)
    (rinit : Option (ℕ → Vec K)) (docs : List (Doc W)) (s : State K W) :
    (emStep psi minim p markov false totalSamples rinit docs s).components =
      (fun k w =>
        (1 - (p.learningOffset + (s.nBatchIter : ℝ)) ^ (-p.learningDecay)) *
            s.components k w +
          (p.learningOffset + (s.nBatchIter : ℝ)) ^ (-p.learningDecay) *
            (p.topicWordPrior + (totalSamples : ℝ) / (docs.length : ℝ) *
              ((eStep psi p s markov true rinit docs).stats.getD 0) k w)) ∧
    (emStep psi minim p markov false totalSamples rinit docs s).nBatchIter =
      s.nBatchIter + 1 ∧
    (eStep psi p s markov true rinit docs).stats =
      some ((docs.enum.map (fun te =>
        docContrib psi markov s.expDirComp p.docTopicPrior s.regWeights
          p.maxDist p.maxDocUpdateIter p.meanChangeTol
          (docInit rinit te.1) te.2)).sum) :=
  ⟨rfl, rfl, rfl⟩

/-! ### C6: no failure handling around the regression optimizer -/

/-- C6 counterexample: on a one-document mini-batch (a realizable input —
`check_array` admits it and `gen_batches` produces such batches), with an
optimizer oracle that fails (`success = False`) and returns the point
`[0, 0]`, `Scseg._em_step` (mlda.py lines 668-669) still assigns the returned
point to `reg_weights_` — the previous weight vector `[-1, 1]` is not
retained, and no success check or warning exists on this path. -/
theorem regWeights_failed_opt_cex :
    (emStep (K := 1) (W := 1) id (fun _ _ => ⟨![0, 0], false⟩) pC6 true true 1
      none [docC6] sC6).regWeights = ![(0 : ℝ), 0] ∧
    ¬ (emStep (K := 1) (W := 1) id (fun _ _ => ⟨![0, 0], false⟩) pC6 true true
      1 none [docC6] sC6).regWeights = regDefault := by
  have h : (emStep (K := 1) (W := 1) id (fun _ _ => ⟨![0, 0], false⟩) pC6 true
      true 1 none [docC6] sC6).regWeights = ![(0 : ℝ), 0] := rfl
  refine ⟨h, ?_⟩
  rw [h]
  intro hEq
  have h0 := congrFun hEq 0
  simp [regDefault] at h0

/-- C6 amended: whenever the regression step runs (`y` supplied and
`no_regression` unset), `Scseg._em_step` assigns the optimizer's returned
point to `reg_weights_` unconditionally (warm-started at the previous
weights); the result's success flag is never consulted, so a failed refit
replaces the weights with whatever point the optimizer returned, with no
warning. -/
theorem regWeights_assigned_unconditionally (psi : ℝ → ℝ) (minim : Minimizer)
    {K W : ℕ} (p : Params) (markov batchUpdate : Bool) (totalSamples : ℕ)
    (rinit : Option (ℕ → Vec K)) (docs : List (Doc W)) (s : State K W)
    (hm : markov = true) (hnr : p.noRegression = false) :
    (emStep psi minim p markov batchUpdate totalSamples rinit docs
      s).regWeights =
      (minim s.regWeights
        ⟨docs.map (fun d => (d.entries.length : ℝ)), docs.map Doc.gaps,
          (eStep psi p s markov true rinit docs).regT.getD [],
          p.maxDist⟩).x := by
  subst hm
  simp [emStep, hnr]

theorem regWeights_assigned_unconditionally_witness :
    (emStep (K := 1) (W := 1) id (fun w _ => ⟨w, true⟩) pC6 true true 1 none
      [docC6] sC6).regWeights = sC6.regWeights :=
  (regWeights_assigned_unconditionally id (fun w _ => ⟨w, true⟩) pC6 true true
    1 none [docC6] sC6 rfl rfl).trans rfl

/-! ### C9: transform and score are pure and deterministic -/

/-- C9: `Scseg.transform` and `Scseg.score` perform no writes to the fitted
model state (first/third conjuncts: the post-call state is the pre-call
state), so calling either twice on the same fitted state and input returns
identical results (second/fourth conjuncts); outside training the E-step is
invoked with `random_init=False` (mlda.py lines 582, 805, 934), so each
document-topic vector is initialised to the deterministic constant all-ones
vector (last conjunct). -/
theorem transform_score_idempotent (psi gammaln : ℝ → ℝ) {K W : ℕ}
    (p : Params) (markov : Bool) (s : State K W) (docs : List (Doc W)) :
    (transformCall psi p markov s docs).2 = s ∧
    transformCall psi p markov (transformCall psi p markov s docs).2 docs =
      transformCall psi p markov s docs ∧
    (scoreCall psi gammaln p markov s docs).2 = s ∧
    scoreCall psi gammaln p markov
        (scoreCall psi gammaln p markov s docs).2 docs =
      scoreCall psi gammaln p markov s docs ∧
    unnormalizedTransform psi p markov s docs =
      docs.enum.map (fun te =>
        (docFinal psi markov s.expDirComp p.docTopicPrior s.regWeights
          p.maxDist p.maxDocUpdateIter p.meanChangeTol (fun _ => 1)
          te.2).1) :=
  ⟨rfl, rfl, rfl, rfl, rfl⟩

end Scregseg

namespace Scregseg

/-! ### C5: `fit` re-initialises the model state -/

lemma emStep_nBatchIter (psi : ℝ → ℝ) (minim : Minimizer) {K W : ℕ}
    (p : Params) (markov batchUpdate : Bool) (totalSamples : ℕ)
    (rinit : Option (ℕ → Vec K)) (docs : List (Doc W)) (s : State K W) :
    (emStep psi minim p markov batchUpdate totalSamples rinit docs
      s).nBatchIter = s.nBatchIter + 1 := rfl

lemma foldl_emStep_nBatchIter (psi : ℝ → ℝ) (minim : Minimizer) {K W : ℕ}
    (p : Params) (markov : Bool) (totalSamples : ℕ) (rinits : ℕ → ℕ → Vec K)
    (l : List (List (Doc W))) :
    ∀ s : State K W,
      (l.foldl (fun st b =>
        emStep psi minim p markov false totalSamples
          (some (rinits st.nBatchIter)) b st) s).nBatchIter =
      s.nBatchIter + l.length := by
  induction l with
  | nil => intro s; simp
  | cons b l ih =>
    intro s
    simp only [List.foldl_cons, List.length_cons]
    rw [ih, emStep_nBatchIter]
    omega

lemma fitIter_nBatchIter (psi : ℝ → ℝ) (minim : Minimizer) {K W : ℕ}
    (p : Params) (markov : Bool) (rinits : ℕ → ℕ → Vec K) (totalSamples : ℕ)
    (docs : List (Doc W)) (s : State K W) :
    (fitIter psi minim p markov rinits totalSamples docs s).nBatchIter =
      s.nBatchIter +
        (if p.online then (chunks p.batchSize docs).length else 1) := by
  unfold fitIter
  cases hpo : p.online with
  | false => simp [hpo, emStep_nBatchIter]
  | true => simp [hpo, foldl_emStep_nBatchIter]

lemma iterate_fitIter_nBatchIter (psi : ℝ → ℝ) (minim : Minimizer) {K W : ℕ}
    (p : Params) (markov : Bool) (rinits : ℕ → ℕ → Vec K) (totalSamples : ℕ)
    (docs : List (Doc W)) :
    ∀ (n : ℕ) (s : State K W),
      (((fitIter psi minim p markov rinits totalSamples docs)^[n])
        s).nBatchIter =
      s.nBatchIter +
        n * (if p.online then (chunks p.batchSize docs).length else 1) := by
  intro n
  induction n with
  | zero => intro s; simp
  | succ n ih =>
    intro s
    rw [Function.iterate_succ_apply, ih, fitIter_nBatchIter]
    ring

lemma fit_nBatchIter (psi : ℝ → ℝ) (minim : Minimizer) {K W : ℕ}
    (p : Params) (markov : Bool) (initC : Mat K W) (rinits : ℕ → ℕ → Vec K)
    (prev : State K W) (docs : List (Doc W)) :
    (fit psi minim p markov initC rinits prev docs).nBatchIter =
      1 + p.maxIter *
        (if p.online then (chunks p.batchSize docs).length else 1) := by
  unfold fit
  rw [iterate_fitIter_nBatchIter]

/-- C5 counterexample: refitting a model whose `n_batch_iter_` is `5` on one
online mini-batch leaves the counter at `2` (it is reset to `1` by
`_init_latent_vars`, which `fit` always calls, and then incremented once),
not at the `6` the claimed cross-fit persistence would give. -/
theorem fit_counter_reset_cex :
    (fit (K := 1) (W := 1) id minC5 pC5 true (fun _ _ => 1) (fun _ _ _ => 1)
      prevC5 [docC5]).nBatchIter = 2 ∧
    ¬ (fit (K := 1) (W := 1) id minC5 pC5 true (fun _ _ => 1) (fun _ _ _ => 1)
      prevC5 [docC5]).nBatchIter = 6 := by
  have h : (fit (K := 1) (W := 1) id minC5 pC5 true (fun _ _ => 1)
      (fun _ _ _ => 1) prevC5 [docC5]).nBatchIter = 2 := by
    rw [fit_nBatchIter]
    simp [pC5, chunks, chunksAux]
  exact ⟨h, by rw [h]; omega⟩

/-- C5 amended: each `fit` call re-initialises the model
(`_init_latent_vars` runs unconditionally at mlda.py lines 719-722): the
mini-batch counter restarts at `1` and, within the single call, increments
once per `_em_step` (once per mini-batch in online mode), ending at
`1 + max_iter * (number of mini-batches)`; the result is entirely independent
of any previously fitted state (second conjunct, for the `y ≠ None` mode in
which even `reg_weights_` is re-initialised). -/
theorem fit_reinitialises (psi : ℝ → ℝ) (minim : Minimizer) {K W : ℕ}
    (p : Params) (markov : Bool) (initC : Mat K W) (rinits : ℕ → ℕ → Vec K)
    (prev prev2 : State K W) (docs : List (Doc W)) :
    (fit psi minim p markov initC rinits prev docs).nBatchIter =
      1 + p.maxIter *
        (if p.online then (chunks p.batchSize docs).length else 1) ∧
    (markov = true →
      fit psi minim p markov initC rinits prev docs =
        fit psi minim p markov initC rinits prev2 docs) := by
  refine ⟨fit_nBatchIter psi minim p markov initC rinits prev docs, ?_⟩
  intro hm
  subst hm
  rfl

theorem fit_reinitialises_witness :
    (fit (K := 1) (W := 1) id minC5 pC5 true (fun _ _ => 1) (fun _ _ _ => 1)
      prevC5b [docC5]).nBatchIter =
      1 + pC5.maxIter *
        (if pC5.online then (chunks pC5.batchSize [docC5]).length else 1) ∧
    fit (K := 1) (W := 1) id minC5 pC5 true (fun _ _ => 1) (fun _ _ _ => 1)
      prevC5b [docC5] =
      fit (K := 1) (W := 1) id minC5 pC5 true (fun _ _ => 1) (fun _ _ _ => 1)
        prevC5 [docC5] :=
  ⟨(fit_reinitialises id minC5 pC5 true (fun _ _ => 1) (fun _ _ _ => 1)
      prevC5b prevC5 [docC5]).1,
   (fit_reinitialises id minC5 pC5 true (fun _ _ => 1) (fun _ _ _ => 1)
      prevC5b prevC5 [docC5]).2 rfl⟩

end Scregseg

namespace Scregseg

/-! ### C7: documents with no non-zero entries -/

lemma updateDocDistribution_rows_eq (psi : ℝ → ℝ) {K W : ℕ} (markov : Bool)
    (expBeta : Mat K W) (prior : ℝ) (regW : Vec 2) (maxDist : ℝ)
    (maxIters : ℕ) (tol : ℝ) (calSstats : Bool) (rinit : Option (ℕ → Vec K))
    (docs : List (Doc W)) :
    (updateDocDistribution psi markov expBeta prior regW maxDist maxIters tol
      calSstats rinit docs).rows =
    docs.enum.map (fun te => (docFinal psi markov expBeta prior regW maxDist
      maxIters tol (docInit rinit te.1) te.2).1) := rfl

lemma docFinal_false (psi : ℝ → ℝ) {K W : ℕ} (expBeta : Mat K W) (prior : ℝ)
    (regW : Vec 2) (maxDist : ℝ) (maxIters : ℕ) (tol : ℝ) (d0 : Vec K)
    (doc : Doc W) :
    docFinal psi false expBeta prior regW maxDist maxIters tol d0 doc =
      ldaDocFinal psi expBeta prior maxIters tol d0 doc := rfl

lemma ldaDocFinal_eq (psi : ℝ → ℝ) {K W : ℕ} (expBeta : Mat K W) (prior : ℝ)
    (maxIters : ℕ) (tol : ℝ) (d0 : Vec K) (doc : Doc W) :
    ldaDocFinal psi expBeta prior maxIters tol d0 doc =
      emDocLoop (ldaBody psi expBeta prior doc) Prod.fst tol maxIters
        (d0, expDirVec psi d0) := rfl

lemma docInit_none_eq {K : ℕ} (i : ℕ) :
    docInit (K := K) none i = fun _ => 1 := rfl

lemma ldaBody_fst_of_empty (psi : ℝ → ℝ) {K W : ℕ} (expBeta : Mat K W)
    (prior : ℝ) (doc : Doc W) (hdoc : doc.entries = [])
    (s : Vec K × Vec K) :
    (ldaBody psi expBeta prior doc s).1 = fun _ => prior := by
  funext k
  simp [ldaBody, hdoc]

lemma markovBody_fst_of_empty (psi : ℝ → ℝ) {K W : ℕ} (elogComp : Mat K W)
    (prior : ℝ) (regW : Vec 2) (maxDist : ℝ) (doc : Doc W)
    (hdoc : doc.entries = []) (s : Vec K × Vec K) :
    (markovBody psi elogComp prior regW maxDist doc s).1 = fun _ => prior := by
  funext k
  simp [markovBody, hdoc, hmmThetaStats]

/-- C7 amended: a document with no non-zero entries contributes the zero
matrix to the sufficient statistics and the zero vector of regression targets
(conjuncts 2, 4, 5), but its stored `doc_topic_distr` row is the constant
`doc_topic_prior` vector (conjuncts 1 and 3, for any positive iteration cap)
— the row the fixed-point body produces, not the prior-initialised vector the
row held before the loop. -/
theorem empty_doc_behavior (psi : ℝ → ℝ) {K W : ℕ} (expBeta : Mat K W)
    (prior : ℝ) (regW : Vec 2) (maxDist : ℝ) (maxIters : ℕ) (tol : ℝ)
    (d0 : Vec K) (doc : Doc W) (hdoc : doc.entries = [])
    (hiter : 1 ≤ maxIters) :
    (ldaDocFinal psi expBeta prior maxIters tol d0 doc).1 = (fun _ => prior) ∧
    ldaDocStats psi expBeta prior maxIters tol d0 doc = 0 ∧
    (markovDocFinal psi expBeta prior regW maxDist maxIters tol d0 doc).1 =
      (fun _ => prior) ∧
    markovDocStats psi expBeta prior regW maxDist maxIters tol d0 doc = 0 ∧
    markovDocRegT psi expBeta prior regW maxDist maxIters tol d0 doc =
      (fun _ => 0) := by
  refine ⟨?_, ?_, ?_, ?_, ?_⟩
  · exact emDocLoop_post (ldaBody psi expBeta prior doc) Prod.fst tol
      (fun s => s.1 = fun _ => prior)
      (fun s => ldaBody_fst_of_empty psi expBeta prior doc hdoc s)
      maxIters _ hiter
  · funext k w
    simp [ldaDocStats, hdoc]
  · exact emDocLoop_post (markovBody psi expBeta prior regW maxDist doc)
      Prod.fst tol (fun s => s.1 = fun _ => prior)
      (fun s => markovBody_fst_of_empty psi expBeta prior regW maxDist doc
        hdoc s)
      maxIters _ hiter
  · funext k w
    simp [markovDocStats, hdoc]
  · funext t
    simp [markovDocRegT, hdoc]

theorem empty_doc_behavior_witness :
    (ldaDocFinal (K := 1) (W := 1) id (fun _ _ => 1) (1/2) 1 1 (fun _ => 1)
      ⟨[], fun _ => 0⟩).1 = (fun _ => (1/2 : ℝ)) :=
  (empty_doc_behavior id (fun _ _ => 1) (1/2) regDefault (10 ^ 7) 1 1
    (fun _ => 1) ⟨[], fun _ => 0⟩ rfl (by norm_num)).1

/-- C7 counterexample: for the empty document under the plain-LDA E-step with
`doc_topic_prior = 1/2`, `random_init=False` (so the prior-initialised row is
the all-ones vector), iteration cap `2` and tolerance `1/1000`, the returned
row is the constant `1/2` vector — not the all-ones vector it was initialised
to before the fixed-point loop, refuting the claim that the row stays at its
prior-initialised value. -/
theorem empty_doc_row_cex :
    (updateDocDistribution (K := 1) (W := 1) id false (fun _ _ => 1) (1/2)
      regDefault (10 ^ 7) 2 (1/1000) false none
      [⟨[], fun _ => 0⟩]).rows = [fun _ => (1/2 : ℝ)] ∧
    ¬ ((updateDocDistribution (K := 1) (W := 1) id false (fun _ _ => 1) (1/2)
      regDefault (10 ^ 7) 2 (1/1000) false none
      [⟨[], fun _ => 0⟩]).rows = [fun _ => (1 : ℝ)]) := by
  have hbody : ∀ s, (ldaBody (K := 1) (W := 1) id (fun _ _ => 1) (1/2)
      ⟨[], fun _ => 0⟩ s).1 = fun _ => (1/2 : ℝ) :=
    fun s => ldaBody_fst_of_empty id (fun _ _ => 1) (1/2) ⟨[], fun _ => 0⟩
      rfl s
  have hpost : (emDocLoop (ldaBody (K := 1) (W := 1) id (fun _ _ => 1) (1/2)
      ⟨[], fun _ => 0⟩) Prod.fst (1/1000) 2
      ((fun _ => 1), expDirVec id (fun _ => 1))).1 = fun _ => (1/2 : ℝ) :=
    emDocLoop_post
      (ldaBody (K := 1) (W := 1) id (fun _ _ => 1) (1/2) ⟨[], fun _ => 0⟩)
      Prod.fst (1/1000) (fun s => s.1 = fun _ => (1/2 : ℝ)) hbody 2
      ((fun _ => 1), expDirVec id (fun _ => 1)) (by norm_num)
  have hrow : (updateDocDistribution (K := 1) (W := 1) id false
      (fun _ _ => 1) (1/2) regDefault (10 ^ 7) 2 (1/1000) false none
      [⟨[], fun _ => 0⟩]).rows = [fun _ => (1/2 : ℝ)] := by
    rw [updateDocDistribution_rows_eq]
    show [(docFinal (K := 1) (W := 1) id false (fun _ _ => 1) (1/2)
      regDefault (10 ^ 7) 2 (1/1000) (docInit none 0)
      ⟨[], fun _ => 0⟩).1] = [fun _ => (1/2 : ℝ)]
    rw [docFinal_false, docInit_none_eq, ldaDocFinal_eq]
    exact congrArg (fun v => [v]) hpost
  refine ⟨hrow, fun hEq => ?_⟩
  have h1 := congrFun (List.cons.inj (hrow.symm.trans hEq)).1 0
  norm_num at h1

end Scregseg

namespace Scregseg.CM

/-! ### C10: the CountMatrix shape-consistency invariant -/

lemma filter_range_getD_length {α : Type} (p : α → Bool) (d : α)
    (l : List α) :
    ((List.range l.length).filter (fun j => p (l.getD j d))).length =
      (l.filter p).length := by
  rw [← List.countP_eq_length_filter, ← List.countP_eq_length_filter]
  induction l with
  | nil => simp
  | cons a t ih =>
    rw [List.length_cons, List.range_succ_eq_map, List.countP_cons,
      List.countP_map, List.countP_cons]
    have hq : ((fun j => p ((a :: t).getD j d)) ∘ Nat.succ) =
        (fun j => p (t.getD j d)) := rfl
    rw [hq, ih]
    rfl

/-- C10: every `CountMatrix`-producing operation of countmatrix.py yields an
object satisfying the shape-consistency invariant (one matrix row per region
annotation entry, one matrix column per cell annotation entry): the
constructor's asserts establish it, and `remove_chroms`,
`filter_count_matrix`, `subset`, `pseudobulk` and `merge` (the latter under
the invariant of its inputs) preserve it. -/
theorem countMatrix_shape_invariant (cm : CountMatrix) (h : Inv cm)
    (chroms : List String) (minCell maxCell minRegion maxRegion : Option ℚ)
    (bz : Bool) (tr : Option ℚ) (cells : List String)
    (pairs : List (String × String)) (cms : List CountMatrix)
    (lbl : Option (List String)) (m : SMat) (reg : List RegionRow)
    (can : List CellRow) (cm2 : CountMatrix) :
    (mkCountMatrix m reg can = some cm2 → Inv cm2) ∧
    Inv (removeChroms cm chroms) ∧
    Inv (filterCountMatrix cm minCell maxCell minRegion maxRegion bz tr) ∧
    Inv (subset cm cells) ∧
    Inv (pseudobulk cm pairs) ∧
    ((∀ c ∈ cms, Inv c) → Inv (merge cms lbl)) := by
  refine ⟨?_, ?_, ?_, ?_, ?_, ?_⟩
  · intro hmk
    rw [mkCountMatrix] at hmk
    split_ifs at hmk with hcond
    cases hmk
    exact hcond
  · exact ⟨by simp [removeChroms, selectRows], by
      simp [removeChroms, selectRows, h.2]⟩
  · exact ⟨by simp [filterCountMatrix, selectRows, selectCols], by
      simp [filterCountMatrix, selectRows, selectCols]⟩
  · refine ⟨by simp [subset, selectCols, h.1], ?_⟩
    show ((List.range cm.cannot.length).filter (fun j =>
      cells.contains (cm.cannot.getD j cellDefault).cell)).length =
      (cm.cannot.filter (fun c => cells.contains c.cell)).length
    exact filter_range_getD_length (fun c => cells.contains c.cell)
      cellDefault cm.cannot
  · exact ⟨h.1, by simp [pseudobulk]⟩
  · intro hall
    cases cms with
    | nil => exact ⟨rfl, rfl⟩
    | cons c cs =>
      have hc := hall c (List.mem_cons_self c cs)
      refine ⟨by simpa [merge, hstackMats] using hc.1, ?_⟩
      show ((List.map CountMatrix.cmat (c :: cs)).map SMat.cols).sum = _
      rw [List.map_map]
      show _ = ((List.enum (c :: cs)).map
        (fun ic => addSampleColumn ic.1 lbl ic.2.cannot)).flatten.length
      rw [List.length_flatten, List.map_map]
      have h1 : (List.length ∘ fun ic : ℕ × CountMatrix =>
          addSampleColumn ic.1 lbl ic.2.cannot) =
          (fun ic : ℕ × CountMatrix => ic.2.cannot.length) := by
        funext ic
        simp [addSampleColumn]
      rw [h1]
      have h2 : (List.enum (c :: cs)).map
          (fun ic : ℕ × CountMatrix => ic.2.cannot.length) =
          (c :: cs).map (fun cmx => cmx.cannot.length) := by
        rw [show (fun ic : ℕ × CountMatrix => ic.2.cannot.length) =
          (fun cmx : CountMatrix => cmx.cannot.length) ∘ Prod.snd from rfl,
          ← List.map_map, List.enum_map_snd]
      rw [h2]
      refine congrArg List.sum (List.map_congr_left ?_)
      intro x hx
      exact (hall x hx).2

theorem countMatrix_shape_invariant_witness :
    Inv (removeChroms ⟨⟨1, 1, fun _ _ => 0⟩, [⟨"chr1", 0, 100, 0⟩],
      [⟨"c1", none⟩]⟩ ["chr2"]) :=
  (countMatrix_shape_invariant
    ⟨⟨1, 1, fun _ _ => 0⟩, [⟨"chr1", 0, 100, 0⟩], [⟨"c1", none⟩]⟩
    ⟨rfl, rfl⟩ ["chr2"] none none none none true none [] [] [] none
    emptySMat [] [] emptyCM).2.1

end Scregseg.CM

namespace Scregseg

/-! ### C8: strict positivity of `components_` and `doc_topic_distr` -/

lemma EPS_pos : 0 < EPS := by norm_num [EPS]

lemma hmmPostOf_nonneg {K : ℕ} (F : ℕ → Fin K → Fin 2 → ℝ)
    (B : ℕ → Fin K → ℝ) (t : ℕ) (k : Fin K) : 0 ≤ hmmPostOf F B t k := by
  unfold hmmPostOf
  positivity

lemma docCnt_nonneg {W : ℕ} (doc : Doc W)
    (hc : ∀ e ∈ doc.entries, 0 ≤ e.2) (t : ℕ) : 0 ≤ docCnt doc t := by
  unfold docCnt
  cases hg : doc.entries[t]? with
  | none => simp [hg]
  | some e => simpa using hc e (List.getElem?_mem hg)

lemma hmmThetaStats_nonneg {K : ℕ} (F : ℕ → Fin K → Fin 2 → ℝ)
    (B : ℕ → Fin K → ℝ) (cnts : ℕ → ℝ) (L : ℕ) (hc : ∀ t, 0 ≤ cnts t)
    (k : Fin K) : 0 ≤ hmmThetaStats F B cnts L k :=
  Finset.sum_nonneg fun t _ =>
    div_nonneg (mul_nonneg (hc t) (hmmPostOf_nonneg F B t k))
      (Finset.sum_nonneg fun k2 _ => hmmPostOf_nonneg F B t k2)

lemma ldaNormPhi_pos {K W : ℕ} (expD : Vec K) (expBeta : Mat K W) (w : Fin W)
    (h1 : ∀ k, 0 ≤ expD k) (h2 : ∀ k w2, 0 ≤ expBeta k w2) :
    0 < ldaNormPhi expD expBeta w := by
  unfold ldaNormPhi
  have h3 : 0 ≤ ∑ k, expD k * expBeta k w :=
    Finset.sum_nonneg fun k _ => mul_nonneg (h1 k) (h2 k w)
  have h4 := EPS_pos
  linarith

lemma ldaBody_snd_pos (psi : ℝ → ℝ) {K W : ℕ} (expBeta : Mat K W)
    (prior : ℝ) (doc : Doc W) (s : Vec K × Vec K) (k : Fin K) :
    0 < (ldaBody psi expBeta prior doc s).2 k :=
  Real.exp_pos _

lemma ldaBody_fst_pos (psi : ℝ → ℝ) {K W : ℕ} (expBeta : Mat K W)
    (prior : ℝ) (doc : Doc W) (hprior : 0 < prior)
    (hc : ∀ e ∈ doc.entries, 0 ≤ e.2) (hbeta : ∀ k w, 0 ≤ expBeta k w)
    (s : Vec K × Vec K) (hs2 : ∀ k, 0 ≤ s.2 k) (k : Fin K) :
    0 < (ldaBody psi expBeta prior doc s).1 k := by
  simp only [ldaBody]
  have hsum : 0 ≤ (doc.entries.map
      (fun e => e.2 / ldaNormPhi s.2 expBeta e.1 * expBeta k e.1)).sum := by
    apply List.sum_nonneg
    intro x hx
    obtain ⟨e, he, rfl⟩ := List.mem_map.1 hx
    exact mul_nonneg
      (div_nonneg (hc e he)
        (le_of_lt (ldaNormPhi_pos s.2 expBeta e.1 hs2 hbeta)))
      (hbeta k e.1)
  have h2 := mul_nonneg (hs2 k) hsum
  linarith

lemma ldaDocFinal_pos (psi : ℝ → ℝ) {K W : ℕ} (expBeta : Mat K W)
    (prior : ℝ) (maxIters : ℕ) (tol : ℝ) (d0 : Vec K) (doc : Doc W)
    (hprior : 0 < prior) (hc : ∀ e ∈ doc.entries, 0 ≤ e.2)
    (hbeta : ∀ k w, 0 ≤ expBeta k w) (hd0 : ∀ k, 0 < d0 k) :
    (∀ k, 0 < (ldaDocFinal psi expBeta prior maxIters tol d0 doc).1 k) ∧
    (∀ k, 0 < (ldaDocFinal psi expBeta prior maxIters tol d0 doc).2 k) :=
  emDocLoop_invar (ldaBody psi expBeta prior doc) Prod.fst tol
    (fun s => (∀ k, 0 < s.1 k) ∧ (∀ k, 0 < s.2 k))
    (fun s hs =>
      ⟨fun k => ldaBody_fst_pos psi expBeta prior doc hprior hc hbeta s
        (fun k2 => le_of_lt (hs.2 k2)) k,
       fun k => ldaBody_snd_pos psi expBeta prior doc s k⟩)
    maxIters (d0, expDirVec psi d0) ⟨hd0, fun _ => Real.exp_pos _⟩

lemma ldaDocFinal_snd_pos (psi : ℝ → ℝ) {K W : ℕ} (expBeta : Mat K W)
    (prior : ℝ) (maxIters : ℕ) (tol : ℝ) (d0 : Vec K) (doc : Doc W)
    (k : Fin K) :
    0 < (ldaDocFinal psi expBeta prior maxIters tol d0 doc).2 k :=
  emDocLoop_invar (ldaBody psi expBeta prior doc) Prod.fst tol
    (fun s => ∀ k2, 0 < s.2 k2)
    (fun s _ => fun k2 => ldaBody_snd_pos psi expBeta prior doc s k2)
    maxIters (d0, expDirVec psi d0) (fun _ => Real.exp_pos _) k

lemma ldaDocStats_nonneg (psi : ℝ → ℝ) {K W : ℕ} (expBeta : Mat K W)
    (prior : ℝ) (maxIters : ℕ) (tol : ℝ) (d0 : Vec K) (doc : Doc W)
    (hc : ∀ e ∈ doc.entries, 0 ≤ e.2) (hbeta : ∀ k w, 0 ≤ expBeta k w)
    (k : Fin K) (w : Fin W) :
    0 ≤ ldaDocStats psi expBeta prior maxIters tol d0 doc k w := by
  simp only [ldaDocStats]
  apply List.sum_nonneg
  intro x hx
  obtain ⟨e, he, rfl⟩ := List.mem_map.1 hx
  split_ifs
  · refine mul_nonneg (mul_nonneg ?_ ?_) (hbeta k e.1)
    · exact le_of_lt (ldaDocFinal_snd_pos psi expBeta prior maxIters tol d0
        doc k)
    · exact div_nonneg (hc e he) (le_of_lt (ldaNormPhi_pos _ expBeta e.1
        (fun k2 => le_of_lt (ldaDocFinal_snd_pos psi expBeta prior maxIters
          tol d0 doc k2)) hbeta))
  · exact le_refl 0

lemma markovBody_fst_pos (psi : ℝ → ℝ) {K W : ℕ} (elogComp : Mat K W)
    (prior : ℝ) (regW : Vec 2) (maxDist : ℝ) (doc : Doc W)
    (hprior : 0 < prior) (hc : ∀ e ∈ doc.entries, 0 ≤ e.2)
    (s : Vec K × Vec K) (k : Fin K) :
    0 < (markovBody psi elogComp prior regW maxDist doc s).1 k := by
  simp only [markovBody]
  have h1 := hmmThetaStats_nonneg
    (markovLatticeF elogComp regW maxDist doc s.2)
    (markovLatticeB elogComp regW maxDist doc s.2)
    (docCnt doc) doc.entries.length (docCnt_nonneg doc hc) k
  linarith

lemma markovDocFinal_fst_pos (psi : ℝ → ℝ) {K W : ℕ} (elogComp : Mat K W)
    (prior : ℝ) (regW : Vec 2) (maxDist : ℝ) (maxIters : ℕ) (tol : ℝ)
    (d0 : Vec K) (doc : Doc W) (hprior : 0 < prior)
    (hc : ∀ e ∈ doc.entries, 0 ≤ e.2) (hd0 : ∀ k, 0 < d0 k) :
    ∀ k, 0 < (markovDocFinal psi elogComp prior regW maxDist maxIters tol d0
      doc).1 k :=
  emDocLoop_invar (markovBody psi elogComp prior regW maxDist doc) Prod.fst
    tol (fun s => ∀ k, 0 < s.1 k)
    (fun s _ => fun k => markovBody_fst_pos psi elogComp prior regW maxDist
      doc hprior hc s k)
    maxIters (d0, dirVec psi d0) hd0

lemma markovDocStats_nonneg (psi : ℝ → ℝ) {K W : ℕ} (elogComp : Mat K W)
    (prior : ℝ) (regW : Vec 2) (maxDist : ℝ) (maxIters : ℕ) (tol : ℝ)
    (d0 : Vec K) (doc : Doc W) (hc : ∀ e ∈ doc.entries, 0 ≤ e.2)
    (k : Fin K) (w : Fin W) :
    0 ≤ markovDocStats psi elogComp prior regW maxDist maxIters tol d0 doc
      k w := by
  simp only [markovDocStats]
  apply List.sum_nonneg
  intro x hx
  obtain ⟨te, hte, rfl⟩ := List.mem_map.1 hx
  split_ifs
  · exact div_nonneg
      (mul_nonneg (docCnt_nonneg doc hc te.1) (hmmPostOf_nonneg _ _ te.1 k))
      (Finset.sum_nonneg fun k2 _ => hmmPostOf_nonneg _ _ te.1 k2)
  · exact le_refl 0

lemma docContrib_nonneg (psi : ℝ → ℝ) {K W : ℕ} (markov : Bool)
    (expBeta : Mat K W) (prior : ℝ) (regW : Vec 2) (maxDist : ℝ)
    (maxIters : ℕ) (tol : ℝ) (d0 : Vec K) (doc : Doc W)
    (hc : ∀ e ∈ doc.entries, 0 ≤ e.2)
    (hbeta : markov = false → ∀ k w, 0 ≤ expBeta k w) (k : Fin K)
    (w : Fin W) :
    0 ≤ docContrib psi markov expBeta prior regW maxDist maxIters tol d0 doc
      k w := by
  cases hm : markov with
  | true =>
    simp only [docContrib, hm, if_true]
    exact markovDocStats_nonneg psi expBeta prior regW maxDist maxIters tol
      d0 doc hc k w
  | false =>
    simp only [docContrib, hm, if_false, Bool.false_eq_true]
    exact ldaDocStats_nonneg psi expBeta prior maxIters tol d0 doc hc
      (hbeta hm) k w

lemma enum_snd_mem {α : Type} {l : List α} {te : ℕ × α} (h : te ∈ l.enum) :
    te.2 ∈ l := by
  have h2 := List.mem_map_of_mem Prod.snd h
  rwa [List.enum_map_snd] at h2

lemma docInit_pos {K : ℕ} (rinit : Option (ℕ → Vec K))
    (hr : ∀ f i k, rinit = some f → 0 < f i k) (i : ℕ) (k : Fin K) :
    0 < docInit rinit i k := by
  cases hrr : rinit with
  | none => simp [docInit]
  | some f => simpa [docInit] using hr f i k hrr

lemma updateDocDistribution_rows_pos (psi : ℝ → ℝ) {K W : ℕ} (markov : Bool)
    (expBeta : Mat K W) (prior : ℝ) (regW : Vec 2) (maxDist : ℝ)
    (maxIters : ℕ) (tol : ℝ) (calSstats : Bool)
    (rinit : Option (ℕ → Vec K)) (docs : List (Doc W)) (hprior : 0 < prior)
    (hbeta : markov = false → ∀ k w, 0 ≤ expBeta k w)
    (hrinit : ∀ i k, 0 < docInit rinit i k)
    (hdocs : ∀ doc ∈ docs, ∀ e ∈ doc.entries, 0 ≤ e.2) :
    ∀ r ∈ (updateDocDistribution psi markov expBeta prior regW maxDist
      maxIters tol calSstats rinit docs).rows, ∀ k, 0 < r k := by
  intro r hr k
  simp only [updateDocDistribution] at hr
  obtain ⟨te, hte, rfl⟩ := List.mem_map.1 hr
  have hdoc := hdocs te.2 (enum_snd_mem hte)
  cases hm : markov with
  | true =>
    simp only [docFinal, hm, if_true]
    exact markovDocFinal_fst_pos psi expBeta prior regW maxDist maxIters tol
      (docInit rinit te.1) te.2 hprior hdoc (fun k2 => hrinit te.1 k2) k
  | false =>
    simp only [docFinal, hm, if_false, Bool.false_eq_true]
    exact (ldaDocFinal_pos psi expBeta prior maxIters tol (docInit rinit te.1)
      te.2 hprior hdoc (hbeta hm) (fun k2 => hrinit te.1 k2)).1 k

lemma list_sum_mat_apply {K W : ℕ} (l : List (Mat K W)) (k : Fin K)
    (w : Fin W) : l.sum k w = (l.map (fun M => M k w)).sum := by
  induction l with
  | nil => simp
  | cons M l ih => simp [List.sum_cons, ih]

lemma updateDocDistribution_stats_nonneg (psi : ℝ → ℝ) {K W : ℕ}
    (markov : Bool) (expBeta : Mat K W) (prior : ℝ) (regW : Vec 2)
    (maxDist : ℝ) (maxIters : ℕ) (tol : ℝ) (calSstats : Bool)
    (rinit : Option (ℕ → Vec K)) (docs : List (Doc W))
    (hbeta : markov = false → ∀ k w, 0 ≤ expBeta k w)
    (hdocs : ∀ doc ∈ docs, ∀ e ∈ doc.entries, 0 ≤ e.2) (k : Fin K)
    (w : Fin W) :
    0 ≤ ((updateDocDistribution psi markov expBeta prior regW maxDist
      maxIters tol calSstats rinit docs).stats.getD 0) k w := by
  simp only [updateDocDistribution]
  cases calSstats with
  | false => simp
  | true =>
    simp only [if_true, Option.getD_some]
    rw [list_sum_mat_apply]
    apply List.sum_nonneg
    intro x hx
    obtain ⟨M, hM, rfl⟩ := List.mem_map.1 hx
    obtain ⟨te, hte, rfl⟩ := List.mem_map.1 hM
    exact docContrib_nonneg psi markov expBeta prior regW maxDist maxIters
      tol (docInit rinit te.1) te.2 (hdocs te.2 (enum_snd_mem hte)) hbeta k w

lemma emStep_good (psi : ℝ → ℝ) (minim : Minimizer) {K W : ℕ} (p : Params)
    (markov batchUpdate : Bool) (totalSamples : ℕ)
    (rinit : Option (ℕ → Vec K)) (docs : List (Doc W)) (s : State K W)
    (hη : 0 < p.topicWordPrior) (hdec : 0 ≤ p.learningDecay)
    (hoff : 0 ≤ p.learningOffset)
    (hcomp : ∀ k w, 0 < s.components k w)
    (hexp : markov = false → ∀ k w, 0 < s.expDirComp k w)
    (hnb : 1 ≤ s.nBatchIter)
    (hdocs : ∀ doc ∈ docs, ∀ e ∈ doc.entries, 0 ≤ e.2) :
    (∀ k w, 0 < (emStep psi minim p markov batchUpdate totalSamples rinit
      docs s).components k w) ∧
    (markov = false → ∀ k w, 0 < (emStep psi minim p markov batchUpdate
      totalSamples rinit docs s).expDirComp k w) ∧
    1 ≤ (emStep psi minim p markov batchUpdate totalSamples rinit docs
      s).nBatchIter := by
  have hstats : ∀ k w, 0 ≤
      ((eStep psi p s markov true rinit docs).stats.getD 0) k w := by
    intro k w
    exact updateDocDistribution_stats_nonneg psi markov s.expDirComp
      p.docTopicPrior s.regWeights p.maxDist p.maxDocUpdateIter
      p.meanChangeTol true rinit docs
      (fun hm k2 w2 => le_of_lt (hexp hm k2 w2)) hdocs k w
  have hcompNew : ∀ k w, 0 < (emStep psi minim p markov batchUpdate
      totalSamples rinit docs s).components k w := by
    intro k w
    simp only [emStep]
    cases batchUpdate with
    | true =>
      simp only [if_true]
      have := hstats k w
      linarith
    | false =>
      simp only [if_false, Bool.false_eq_true]
      have hbase : (1 : ℝ) ≤ p.learningOffset + (s.nBatchIter : ℝ) := by
        have h1 : (1 : ℝ) ≤ (s.nBatchIter : ℝ) := by exact_mod_cast hnb
        linarith
      have hwpos : 0 < (p.learningOffset + (s.nBatchIter : ℝ)) ^
          (-p.learningDecay) :=
        Real.rpow_pos_of_pos (by linarith) _
      have hwle : (p.learningOffset + (s.nBatchIter : ℝ)) ^
          (-p.learningDecay) ≤ 1 :=
        Real.rpow_le_one_of_one_le_of_nonpos hbase (neg_nonpos.mpr hdec)
      have hdr : 0 ≤ (totalSamples : ℝ) / (docs.length : ℝ) :=
        div_nonneg (Nat.cast_nonneg _) (Nat.cast_nonneg _)
      have t1 : 0 ≤ (1 - (p.learningOffset + (s.nBatchIter : ℝ)) ^
          (-p.learningDecay)) * s.components k w :=
        mul_nonneg (by linarith) (le_of_lt (hcomp k w))
      have t2 : 0 < (p.learningOffset + (s.nBatchIter : ℝ)) ^
          (-p.learningDecay) * (p.topicWordPrior +
            (totalSamples : ℝ) / (docs.length : ℝ) *
              ((eStep psi p s markov true rinit docs).stats.getD 0) k w) :=
        mul_pos hwpos
          (add_pos_of_pos_of_nonneg hη (mul_nonneg hdr (hstats k w)))
      linarith
  refine ⟨hcompNew, ?_, ?_⟩
  · intro hm
    intro k w
    simp only [emStep, hm]
    simp only [if_false, Bool.false_eq_true]
    exact Real.exp_pos _
  · show 1 ≤ s.nBatchIter + 1
    omega

lemma chunksAux_mem_subset {α : Type} (bs : ℕ) :
    ∀ (n : ℕ) (l : List α) (b : List α), b ∈ chunksAux bs n l →
      ∀ x ∈ b, x ∈ l := by
  intro n
  induction n with
  | zero => intro l b hb; simp [chunksAux] at hb
  | succ n ih =>
    intro l b hb
    match l with
    | [] => simp [chunksAux] at hb
    | a :: l2 =>
      rw [chunksAux] at hb
      rcases List.mem_cons.1 hb with rfl | hb2
      · intro x hx
        exact List.take_subset bs (a :: l2) hx
      · intro x hx
        exact List.drop_subset bs (a :: l2) (ih _ _ hb2 x hx)

lemma chunks_mem_subset {α : Type} (bs : ℕ) (l : List α) (b : List α)
    (hb : b ∈ chunks bs l) : ∀ x ∈ b, x ∈ l :=
  chunksAux_mem_subset bs l.length l b hb

lemma foldl_emStep_good (psi : ℝ → ℝ) (minim : Minimizer) {K W : ℕ}
    (p : Params) (markov : Bool) (totalSamples : ℕ)
    (rinits : ℕ → ℕ → Vec K) (hη : 0 < p.topicWordPrior)
    (hdec : 0 ≤ p.learningDecay) (hoff : 0 ≤ p.learningOffset) :
    ∀ (l : List (List (Doc W))),
      (∀ b ∈ l, ∀ doc ∈ b, ∀ e ∈ doc.entries, 0 ≤ e.2) →
      ∀ s : State K W,
        (∀ k w, 0 < s.components k w) →
        (markov = false → ∀ k w, 0 < s.expDirComp k w) →
        1 ≤ s.nBatchIter →
        (∀ k w, 0 < (l.foldl (fun st b =>
            emStep psi minim p markov false totalSamples
              (some (rinits st.nBatchIter)) b st) s).components k w) ∧
        (markov = false → ∀ k w, 0 < (l.foldl (fun st b =>
            emStep psi minim p markov false totalSamples
              (some (rinits st.nBatchIter)) b st) s).expDirComp k w) ∧
        1 ≤ (l.foldl (fun st b =>
            emStep psi minim p markov false totalSamples
              (some (rinits st.nBatchIter)) b st) s).nBatchIter := by
  intro l
  induction l with
  | nil => intro _ s h1 h2 h3; exact ⟨h1, h2, h3⟩
  | cons b l ih =>
    intro hl s h1 h2 h3
    simp only [List.foldl_cons]
    have hstep := emStep_good psi minim p markov false totalSamples
      (some (rinits s.nBatchIter)) b s hη hdec hoff h1 h2 h3
      (hl b (List.mem_cons_self b l))
    exact ih (fun b2 hb2 => hl b2 (List.mem_cons_of_mem b hb2)) _
      hstep.1 hstep.2.1 hstep.2.2

lemma fitIter_good (psi : ℝ → ℝ) (minim : Minimizer) {K W : ℕ} (p : Params)
    (markov : Bool) (rinits : ℕ → ℕ → Vec K) (totalSamples : ℕ)
    (docs : List (Doc W)) (s : State K W) (hη : 0 < p.topicWordPrior)
    (hdec : 0 ≤ p.learningDecay) (hoff : 0 ≤ p.learningOffset)
    (hcomp : ∀ k w, 0 < s.components k w)
    (hexp : markov = false → ∀ k w, 0 < s.expDirComp k w)
    (hnb : 1 ≤ s.nBatchIter)
    (hdocs : ∀ doc ∈ docs, ∀ e ∈ doc.entries, 0 ≤ e.2) :
    (∀ k w, 0 < (fitIter psi minim p markov rinits totalSamples docs
      s).components k w) ∧
    (markov = false → ∀ k w, 0 < (fitIter psi minim p markov rinits
      totalSamples docs s).expDirComp k w) ∧
    1 ≤ (fitIter psi minim p markov rinits totalSamples docs s).nBatchIter := by
  unfold fitIter
  cases hpo : p.online with
  | true =>
    simp only [if_true]
    have := foldl_emStep_good psi minim p markov totalSamples rinits hη hdec
      hoff (chunks p.batchSize docs)
      (fun b hb doc hdoc => hdocs doc (chunks_mem_subset p.batchSize docs b
        hb doc hdoc))
      s hcomp hexp hnb
    exact ⟨this.1, this.2.1, this.2.2⟩
  | false =>
    simp only [if_false, Bool.false_eq_true]
    have := emStep_good psi minim p markov true totalSamples
      (some (rinits s.nBatchIter)) docs s hη hdec hoff hcomp hexp hnb hdocs
    exact ⟨this.1, this.2.1, this.2.2⟩

lemma iterate_fitIter_good (psi : ℝ → ℝ) (minim : Minimizer) {K W : ℕ}
    (p : Params) (markov : Bool) (rinits : ℕ → ℕ → Vec K) (totalSamples : ℕ)
    (docs : List (Doc W)) (hη : 0 < p.topicWordPrior)
    (hdec : 0 ≤ p.learningDecay) (hoff : 0 ≤ p.learningOffset)
    (hdocs : ∀ doc ∈ docs, ∀ e ∈ doc.entries, 0 ≤ e.2) :
    ∀ (n : ℕ) (s : State K W),
      (∀ k w, 0 < s.components k w) →
      (markov = false → ∀ k w, 0 < s.expDirComp k w) →
      1 ≤ s.nBatchIter →
      (∀ k w, 0 < (((fitIter psi minim p markov rinits totalSamples
        docs)^[n]) s).components k w) ∧
      (markov = false → ∀ k w, 0 < (((fitIter psi minim p markov rinits
        totalSamples docs)^[n]) s).expDirComp k w) ∧
      1 ≤ (((fitIter psi minim p markov rinits totalSamples docs)^[n])
        s).nBatchIter := by
  intro n
  induction n with
  | zero => intro s h1 h2 h3; exact ⟨h1, h2, h3⟩
  | succ n ih =>
    intro s h1 h2 h3
    rw [Function.iterate_succ_apply]
    have hstep := fitIter_good psi minim p markov rinits totalSamples docs s
      hη hdec hoff h1 h2 h3 hdocs
    exact ih _ hstep.1 hstep.2.1 hstep.2.2

lemma fit_good (psi : ℝ → ℝ) (minim : Minimizer) {K W : ℕ} (p : Params)
    (markov : Bool) (initC : Mat K W) (rinits : ℕ → ℕ → Vec K)
    (prev : State K W) (docs : List (Doc W)) (hη : 0 < p.topicWordPrior)
    (hdec : 0 ≤ p.learningDecay) (hoff : 0 ≤ p.learningOffset)
    (hinit : ∀ k w, 0 < initC k w)
    (hdocs : ∀ doc ∈ docs, ∀ e ∈ doc.entries, 0 ≤ e.2) :
    (∀ k w, 0 < (fit psi minim p markov initC rinits prev docs).components
      k w) ∧
    (markov = false → ∀ k w, 0 < (fit psi minim p markov initC rinits prev
      docs).expDirComp k w) ∧
    1 ≤ (fit psi minim p markov initC rinits prev docs).nBatchIter := by
  unfold fit
  apply iterate_fitIter_good psi minim p markov rinits docs.length docs hη
    hdec hoff hdocs p.maxIter
  · exact hinit
  · intro hm
    intro k w
    simp only [hm]
    simp only [if_false, Bool.false_eq_true]
    exact Real.exp_pos _
  · exact le_refl 1

end Scregseg

namespace Scregseg

/-- C8: under the documented configuration (strictly positive priors,
`learning_offset >= 0` as `_check_params` enforces, `learning_decay >= 0` as
the documentation prescribes), with positive random initialisations (numpy
gamma draws) and a non-negative input matrix (enforced by
`check_non_negative`), every entry of `components_` produced by `fit` is
strictly positive, and every entry of every `doc_topic_distr` row produced by
a subsequent transform's E-step is strictly positive: the document-topic
prior is added to every document-topic vector inside the fixed point and the
topic-word prior enters every M-step update, so no pseudocount is ever
zero. -/
theorem components_docTopic_positive (psi : ℝ → ℝ) (minim : Minimizer)
    {K W : ℕ} (p : Params) (markov : Bool) (initC : Mat K W)
    (rinits : ℕ → ℕ → Vec K) (prev : State K W) (docs docs2 : List (Doc W))
    (hα : 0 < p.docTopicPrior) (hη : 0 < p.topicWordPrior)
    (hdec : 0 ≤ p.learningDecay) (hoff : 0 ≤ p.learningOffset)
    (hinit : ∀ k w, 0 < initC k w)
    (hdocs : ∀ doc ∈ docs, ∀ e ∈ doc.entries, 0 ≤ e.2)
    (hdocs2 : ∀ doc ∈ docs2, ∀ e ∈ doc.entries, 0 ≤ e.2) :
    (∀ k w, 0 < (fit psi minim p markov initC rinits prev docs).components
      k w) ∧
    (∀ r ∈ unnormalizedTransform psi p markov
      (fit psi minim p markov initC rinits prev docs) docs2, ∀ k, 0 < r k) := by
  have hgood := fit_good psi minim p markov initC rinits prev docs hη hdec
    hoff hinit hdocs
  refine ⟨hgood.1, ?_⟩
  intro r hr k
  exact updateDocDistribution_rows_pos psi markov
    (fit psi minim p markov initC rinits prev docs).expDirComp
    p.docTopicPrior
    (fit psi minim p markov initC rinits prev docs).regWeights
    p.maxDist p.maxDocUpdateIter p.meanChangeTol false none docs2 hα
    (fun hm k2 w2 => le_of_lt (hgood.2.1 hm k2 w2))
    (fun _ _ => by simp [docInit]) hdocs2 r hr k

theorem components_docTopic_positive_witness :
    0 < (fit (K := 1) (W := 1) id minC5 pC6 false (fun _ _ => 1)
      (fun _ _ _ => 1) sC6 []).components 0 0 :=
  (components_docTopic_positive id minC5 pC6 false (fun _ _ => 1)
    (fun _ _ _ => 1) sC6 [] [] (by norm_num [pC6]) (by norm_num [pC6])
    (by norm_num [pC6]) (by norm_num [pC6]) (fun _ _ => by norm_num)
    (fun doc hdoc => absurd hdoc (List.not_mem_nil doc))
    (fun doc hdoc => absurd hdoc (List.not_mem_nil doc))).1 0 0

end Scregseg
